import Mathlib

/-!
Verification of the RabbitMQ connector wrapper
(`src/digital_twins/incubator-NuRV-fmu-monitor-service/src/rabbitmq.py`).

The development embeds, in Lean:
  * the Python value space that flows through the codec (`PyValue`), together
    with a faithful model of CPython `json.dumps` (default settings:
    `ensure_ascii=True`, separators `", "` / `": "`, `allow_nan=True`) and of
    CPython `json.loads`;
  * the connector state (`RState`, fields `connection`, `channel`,
    `queue_name` of class `Rabbitmq`) and trace-producing models of its
    methods (`send_message`, `get_message`, `queues_delete`, `close`,
    `connect_to_server`, `__del__`, `subscribe`), where calls into the pika
    channel/connection are recorded as `BrokerCall`s and pika's
    `ChannelWrongStateError`/`ConnectionWrongStateError` on a closed handle
    is modelled by `PyErr.closedConnectionError`.
-/

/-- The Python values relevant to the codec: the JSON data model
(`null`, booleans, arbitrary-precision integers, unicode strings, lists,
string-keyed dicts), plus `float('nan')` (serialized by CPython as the
non-standard literal `NaN` under the default `allow_nan=True`), plus an
arbitrary non-JSON-serializable object (e.g. a `set`), on which
`json.dumps` raises `TypeError`.  General floats are outside the embedding. -/
inductive PyValue where
  | null : PyValue
  | bool : Bool → PyValue
  | int : Int → PyValue
  | str : List Char → PyValue
  | nanFloat : PyValue
  | arr : List PyValue → PyValue
  | dict : List (List Char × PyValue) → PyValue
  | nonSerializable : PyValue

/-- Decimal digit character, `chr(48 + n)` for `n < 10`. -/
def dChar (n : Nat) : Char := Char.ofNat (48 + n)

/-- Lowercase hexadecimal digit character, as produced by CPython `'%04x'`. -/
def hChar (n : Nat) : Char :=
  if n < 10 then Char.ofNat (48 + n) else Char.ofNat (87 + n)

/-- Four lowercase hex digits of `n < 0x10000`, as in CPython `'\\u%04x'`. -/
def hex4 (n : Nat) : List Char :=
  [hChar (n / 4096 % 16), hChar (n / 256 % 16), hChar (n / 16 % 16), hChar (n % 16)]

/-- Decimal digits, most significant first; the fuel argument (any value
`≥ n`) only makes the recursion structural. -/
def natDigsAux : Nat → Nat → List Char
  | 0, n => [dChar n]
  | fuel + 1, n =>
    if n < 10 then [dChar n] else natDigsAux fuel (n / 10) ++ [dChar (n % 10)]

/-- Decimal digits of a natural number, most significant first (`str(n)`). -/
def natDigs (n : Nat) : List Char := natDigsAux n n

/-- `str(i)` for a Python int. -/
def intChars (i : Int) : List Char :=
  if i < 0 then '-' :: natDigs i.natAbs else natDigs i.natAbs

/-- CPython `json.encoder.py_encode_basestring_ascii` treatment of one
character: `\\` and `"` and the five short escapes are written as two-char
escapes, every other character outside `0x20..0x7E` as `\uXXXX` (a surrogate
pair for characters above `0xFFFF`), and the rest verbatim. -/
def escChar (c : Char) : List Char :=
  if c = '"' then ['\\', '"']
  else if c = '\\' then ['\\', '\\']
  else if c = '\n' then ['\\', 'n']
  else if c = '\r' then ['\\', 'r']
  else if c = '\t' then ['\\', 't']
  else if c.toNat = 8 then ['\\', 'b']
  else if c.toNat = 12 then ['\\', 'f']
  else if c.toNat < 0x20 ∨ 0x7E < c.toNat then
    if c.toNat ≤ 0xFFFF then '\\' :: 'u' :: hex4 c.toNat
    else
      ('\\' :: 'u' :: hex4 (0xD800 + (c.toNat - 0x10000) / 0x400)) ++
      ('\\' :: 'u' :: hex4 (0xDC00 + (c.toNat - 0x10000) % 0x400))
  else [c]

/-- The serialized form of a Python string: quotes around the escaped body. -/
def strChars (s : List Char) : List Char :=
  '"' :: (s.flatMap escChar ++ ['"'])

mutual
/-- Serialization of one value, modelling CPython `json.dumps` output with
default settings (`ensure_ascii=True`, separators `", "` and `": "`).
`nonSerializable` never reaches this function in the model: `pyDumps` guards
with `canSer` first, mirroring `json.dumps` raising `TypeError`. -/
def serVal : PyValue → List Char
  | .null => "null".data
  | .bool true => "true".data
  | .bool false => "false".data
  | .int i => intChars i
  | .str s => strChars s
  | .nanFloat => "NaN".data
  | .arr [] => ['[', ']']
  | .arr (x :: xs) => '[' :: (serVal x ++ serTail xs ++ [']'])
  | .dict [] => ['{', '}']
  | .dict (kv :: kvs) => '{' :: (serMemb kv ++ serMembTail kvs ++ ['}'])
  | .nonSerializable => []

/-- `", "`-separated continuation of a list body. -/
def serTail : List PyValue → List Char
  | [] => []
  | x :: xs => ',' :: ' ' :: (serVal x ++ serTail xs)

/-- One `"key": value` member. -/
def serMemb : List Char × PyValue → List Char
  | (k, v) => strChars k ++ (':' :: ' ' :: serVal v)

/-- `", "`-separated continuation of an object body. -/
def serMembTail : List (List Char × PyValue) → List Char
  | [] => []
  | kv :: kvs => ',' :: ' ' :: (serMemb kv ++ serMembTail kvs)
end

mutual
/-- `json.dumps` succeeds on the value (no non-serializable object inside). -/
def canSer : PyValue → Bool
  | .nonSerializable => false
  | .arr xs => canSerList xs
  | .dict kvs => canSerMembs kvs
  | _ => true

def canSerList : List PyValue → Bool
  | [] => true
  | x :: xs => canSer x && canSerList xs

def canSerMembs : List (List Char × PyValue) → Bool
  | [] => true
  | (_, v) :: kvs => canSer v && canSerMembs kvs
end

/-- JSON whitespace, as in CPython `json.decoder.WHITESPACE` (`[ \t\n\r]*`). -/
def isWsChar (c : Char) : Bool := c = ' ' || c = '\t' || c = '\n' || c = '\r'

def skipWs (cs : List Char) : List Char := cs.dropWhile isWsChar

/-- Value of one hexadecimal digit (both cases accepted, as by `int(esc, 16)`
in CPython `json.decoder._decode_uXXXX`). -/
def hexVal (c : Char) : Option Nat :=
  if 48 ≤ c.toNat ∧ c.toNat ≤ 57 then some (c.toNat - 48)
  else if 97 ≤ c.toNat ∧ c.toNat ≤ 102 then some (c.toNat - 87)
  else if 65 ≤ c.toNat ∧ c.toNat ≤ 70 then some (c.toNat - 55)
  else none

/-- CPython `json.decoder.BACKSLASH` table of two-character escapes. -/
def escSimple (e : Char) : Option Char :=
  if e = '"' then some '"'
  else if e = '\\' then some '\\'
  else if e = '/' then some '/'
  else if e = 'b' then some '\x08'
  else if e = 'f' then some '\x0c'
  else if e = 'n' then some '\n'
  else if e = 'r' then some '\r'
  else if e = 't' then some '\t'
  else none

def isDigitCh (c : Char) : Bool := 48 ≤ c.toNat && c.toNat ≤ 57

def digVal (c : Char) : Nat := c.toNat - 48

/-- Decode failures.  `jsonError` models `json.JSONDecodeError`; `notInModel`
marks inputs CPython would accept but whose result is outside this embedding
(float literals, `Infinity`, lone surrogates). -/
inductive DecErr where
  | jsonError : DecErr
  | notInModel : DecErr
deriving Repr, DecidableEq

/-- The value of four hex digit characters, `int(s[idx:idx+4], 16)`. -/
def hex4Val (h1 h2 h3 h4 : Char) : Option Nat :=
  match hexVal h1, hexVal h2, hexVal h3, hexVal h4 with
  | some a, some b, some c, some d => some (((a * 16 + b) * 16 + c) * 16 + d)
  | _, _, _, _ => none

/-- Combination of a high/low surrogate pair into one code point, as in
CPython `py_scanstring`. -/
def combineSurrogate (u u2 : Nat) : Char :=
  Char.ofNat (0x10000 + (u - 0xD800) * 0x400 + (u2 - 0xDC00))

/-- The `\uXXXX` case of CPython `py_scanstring`, on the characters after
`\u`: four hex digits, and when they form a high surrogate followed by a
`\uXXXX` low surrogate the pair is combined.  A CPython result that keeps a
lone surrogate (not a Lean `Char`) is reported as `notInModel`. -/
def parseEscU (cs : List Char) : Except DecErr (Char × List Char) :=
  match cs with
  | h1 :: h2 :: h3 :: h4 :: rest3 =>
    match hex4Val h1 h2 h3 h4 with
    | none => .error .jsonError
    | some u =>
      if 0xD800 ≤ u ∧ u ≤ 0xDBFF then
        match rest3 with
        | '\\' :: 'u' :: g1 :: g2 :: g3 :: g4 :: rest4 =>
          match hex4Val g1 g2 g3 g4 with
          | none => .error .jsonError
          | some u2 =>
            if 0xDC00 ≤ u2 ∧ u2 ≤ 0xDFFF then .ok (combineSurrogate u u2, rest4)
            else .error .notInModel
        | _ => .error .notInModel
      else if 0xDC00 ≤ u ∧ u ≤ 0xDFFF then .error .notInModel
      else .ok (Char.ofNat u, rest3)
  | _ => .error .jsonError

/-- CPython `json.decoder.py_scanstring` on the characters after the opening
quote: returns the string contents and the characters after the closing
quote.  Strict mode (the default) rejects raw control characters.  The fuel
only makes the recursion structural; each step consumes at least one input
character, so `parseStringBody` passes the input length. -/
def parseStringBodyF : Nat → List Char → Except DecErr (List Char × List Char)
  | 0, _ => .error .jsonError
  | fuel + 1, cs =>
    match cs with
    | [] => .error .jsonError
    | c :: rest =>
      if c = '"' then .ok ([], rest)
      else if c = '\\' then
        match rest with
        | [] => .error .jsonError
        | e :: rest2 =>
          if e = 'u' then
            match parseEscU rest2 with
            | .ok (c2, rest3) =>
              (fun p => (c2 :: p.1, p.2)) <$> parseStringBodyF fuel rest3
            | .error er => .error er
          else
            match escSimple e with
            | some c2 =>
              (fun p => (c2 :: p.1, p.2)) <$> parseStringBodyF fuel rest2
            | none => .error .jsonError
      else if c.toNat < 0x20 then .error .jsonError
      else (fun p => (c :: p.1, p.2)) <$> parseStringBodyF fuel rest

def parseStringBody (cs : List Char) : Except DecErr (List Char × List Char) :=
  parseStringBodyF cs.length cs

/-- Does the input continue with a fraction or exponent part?  CPython
`json.scanner.NUMBER_RE` would then produce a float, which is outside the
embedding. -/
def fracExpStart : List Char → Bool
  | [] => false
  | c :: _ => c = '.' || c = 'e' || c = 'E'

/-- The integer part of CPython `NUMBER_RE` (`0|[1-9]\d*`) followed by the
frac/exp check.  `"0"` followed by more digits parses as `0` leaving the
digits unconsumed, exactly like the regex. -/
def parseUDec : List Char → Except DecErr (Nat × List Char)
  | [] => .error .jsonError
  | c :: rest =>
    if c = '0' then
      if fracExpStart rest then .error .notInModel else .ok (0, rest)
    else if isDigitCh c then
      let ds := rest.takeWhile isDigitCh
      let rest2 := rest.dropWhile isDigitCh
      if fracExpStart rest2 then .error .notInModel
      else .ok ((c :: ds).foldl (fun a d => a * 10 + digVal d) 0, rest2)
    else .error .jsonError

/-- A (possibly negative) integer literal, `int(match.group(1))`. -/
def parseNumber (cs : List Char) : Except DecErr (Int × List Char) :=
  match cs with
  | [] => .error .jsonError
  | c :: rest =>
    if c = '-' then (fun p => (-(p.1 : Int), p.2)) <$> parseUDec rest
    else (fun p => ((p.1 : Int), p.2)) <$> parseUDec (c :: rest)

/-- Insertion into a Python dict built by `dict(pairs)`: an existing key has
its value updated in place, a new key is appended. -/
def pyDictInsert (acc : List (List Char × PyValue)) (k : List Char)
    (v : PyValue) : List (List Char × PyValue) :=
  match acc with
  | [] => [(k, v)]
  | (k0, v0) :: t =>
    if k0 = k then (k0, v) :: t else (k0, v0) :: pyDictInsert t k v

def dictFromPairsGo (acc : List (List Char × PyValue)) :
    List (List Char × PyValue) → List (List Char × PyValue)
  | [] => acc
  | (k, v) :: t => dictFromPairsGo (pyDictInsert acc k v) t

/-- `dict(pairs)` as built by CPython `json.decoder.JSONObject`. -/
def dictFromPairs (ps : List (List Char × PyValue)) :
    List (List Char × PyValue) :=
  dictFromPairsGo [] ps

mutual
/-- CPython `json.scanner.py_make_scanner`'s `_scan_once`, preceded by a
whitespace skip (the callers in `JSONArray`/`JSONObject`/`raw_decode` all skip
whitespace before scanning a value).  The fuel argument only bounds nesting
depth; `pyLoads` passes more fuel than the input length, so it never runs
out on a parse that would succeed. -/
def parseValue : Nat → List Char → Except DecErr (PyValue × List Char)
  | 0, _ => .error .jsonError
  | fuel + 1, cs =>
    match skipWs cs with
    | [] => .error .jsonError
    | c :: rest =>
      if c = '"' then (fun p => (PyValue.str p.1, p.2)) <$> parseStringBody rest
      else if c = '{' then parseObjBody fuel rest
      else if c = '[' then parseArrBody fuel rest
      else if c = 'n' then
        match rest with
        | 'u' :: 'l' :: 'l' :: r => .ok (.null, r)
        | _ => .error .jsonError
      else if c = 't' then
        match rest with
        | 'r' :: 'u' :: 'e' :: r => .ok (.bool true, r)
        | _ => .error .jsonError
      else if c = 'f' then
        match rest with
        | 'a' :: 'l' :: 's' :: 'e' :: r => .ok (.bool false, r)
        | _ => .error .jsonError
      else if c = 'N' then
        match rest with
        | 'a' :: 'N' :: r => .ok (.nanFloat, r)
        | _ => .error .jsonError
      else if c = 'I' then .error .notInModel
      else if c = '-' || isDigitCh c then
        match parseNumber (c :: rest) with
        | .ok (i, r) => .ok (.int i, r)
        | .error e =>
          match c, rest with
          | '-', 'I' :: 'n' :: 'f' :: 'i' :: 'n' :: 'i' :: 't' :: 'y' :: _ =>
            .error .notInModel
          | _, _ => .error e
      else .error .jsonError

/-- `JSONArray` right after the `[`. -/
def parseArrBody : Nat → List Char → Except DecErr (PyValue × List Char)
  | 0, _ => .error .jsonError
  | fuel + 1, cs =>
    match skipWs cs with
    | [] => .error .jsonError
    | c :: rest =>
      if c = ']' then .ok (.arr [], rest)
      else
        match parseValue fuel (c :: rest) with
        | .ok (v, r) =>
          match parseArrTail fuel r with
          | .ok (vs, r2) => .ok (.arr (v :: vs), r2)
          | .error e => .error e
        | .error e => .error e

/-- `JSONArray` after a parsed element: expects `,` or `]`. -/
def parseArrTail : Nat → List Char → Except DecErr (List PyValue × List Char)
  | 0, _ => .error .jsonError
  | fuel + 1, cs =>
    match skipWs cs with
    | [] => .error .jsonError
    | c :: rest =>
      if c = ']' then .ok ([], rest)
      else if c = ',' then
        match parseValue fuel rest with
        | .ok (v, r) =>
          match parseArrTail fuel r with
          | .ok (vs, r2) => .ok (v :: vs, r2)
          | .error e => .error e
        | .error e => .error e
      else .error .jsonError

/-- `JSONObject` right after the `{`. -/
def parseObjBody : Nat → List Char → Except DecErr (PyValue × List Char)
  | 0, _ => .error .jsonError
  | fuel + 1, cs =>
    match skipWs cs with
    | [] => .error .jsonError
    | c :: rest =>
      if c = '}' then .ok (.dict [], rest)
      else if c = '"' then
        match parseMembs fuel (c :: rest) with
        | .ok (pairs, r) => .ok (.dict (dictFromPairs pairs), r)
        | .error e => .error e
      else .error .jsonError

/-- `JSONObject`'s member loop, expecting a `"`-opened key at the head. -/
def parseMembs : Nat → List Char →
    Except DecErr (List (List Char × PyValue) × List Char)
  | 0, _ => .error .jsonError
  | fuel + 1, cs =>
    match cs with
    | '"' :: rest =>
      match parseStringBody rest with
      | .ok (k, r) =>
        match skipWs r with
        | ':' :: r2 =>
          match parseValue fuel r2 with
          | .ok (v, r3) =>
            match skipWs r3 with
            | ',' :: r4 =>
              match parseMembs fuel (skipWs r4) with
              | .ok (ps, r5) => .ok ((k, v) :: ps, r5)
              | .error e => .error e
            | '}' :: r4 => .ok ([(k, v)], r4)
            | _ => .error .jsonError
          | .error e => .error e
        | _ => .error .jsonError
      | .error e => .error e
    | _ => .error .jsonError
end

/-- CPython `json.loads`: skip leading whitespace, scan one value, skip
trailing whitespace, and reject trailing data (`Extra data`). -/
def pyLoads (cs : List Char) : Except DecErr PyValue :=
  match parseValue (cs.length + 1) cs with
  | .ok (v, rest) => if skipWs rest = [] then .ok v else .error .jsonError
  | .error e => .error e

mutual
/-- Nesting-depth measure used only to discharge the parser's fuel
hypotheses; `jsize v` fuel always suffices for `parseValue` on `serVal v`. -/
def jsize : PyValue → Nat
  | .arr xs => 2 + jsizeList xs
  | .dict kvs => 2 + jsizeMembs kvs
  | _ => 1

def jsizeList : List PyValue → Nat
  | [] => 0
  | x :: xs => max (jsize x) (1 + jsizeList xs)

def jsizeMembs : List (List Char × PyValue) → Nat
  | [] => 0
  | (_, v) :: t => 1 + max (jsize v) (jsizeMembs t)
end

/-- `k` does not occur among the keys of the member list. -/
def keysFresh (k : List Char) : List (List Char × PyValue) → Bool
  | [] => true
  | (k2, _) :: t => if k = k2 then false else keysFresh k t

mutual
/-- Membership in the JSON data model as representable by a Python value:
no non-serializable object, no NaN (JSON has no `NaN`, and Python's
`nan == nan` is false so the round-trip law cannot even be stated for it),
and object keys distinct at every level (a Python dict cannot hold
duplicate keys). -/
def inModel : PyValue → Bool
  | .null => true
  | .bool _ => true
  | .int _ => true
  | .str _ => true
  | .nanFloat => false
  | .nonSerializable => false
  | .arr xs => inModelList xs
  | .dict kvs => inModelMembs kvs

def inModelList : List PyValue → Bool
  | [] => true
  | x :: xs => inModel x && inModelList xs

def inModelMembs : List (List Char × PyValue) → Bool
  | [] => true
  | (k, v) :: t => inModel v && keysFresh k t && inModelMembs t
end

/-- The next character (if any) neither extends a decimal literal nor starts
a fraction/exponent: exactly the contexts in which a serialized integer is
re-read unchanged.  Holds for end-of-input and for `,`, `]`, `}`. -/
def numStop : List Char → Bool
  | [] => true
  | c :: _ => !(isDigitCh c) && c ≠ '.' && c ≠ 'e' && c ≠ 'E'

/-! ## The connector state machine

`RState` models the Python-visible attributes of a `Rabbitmq` instance:
`self.connection` and `self.channel` are `none` when the attribute is the
Python `None` (before `connect_to_server`), and `some isClosed` once a pika
object is assigned, with `isClosed` mirroring its `is_closed` flag.
`queue_name` is the tracked queue-name list.  Constructor parameters that
only shape `self.parameters` (host, port, credentials, vhost, ssl options)
play no role in any claim and are not modelled.

Each method is a function from the state (plus the data the broker/runtime
supplies: delivered bodies, server-generated queue names, connect outcome)
to a `Res α`: the Python result or raised error, the resulting state, and
the list of broker-facing calls actually issued, in order.  pika raising
`ChannelWrongStateError`/`ConnectionWrongStateError` on a closed handle is
`PyErr.closedConnectionError` (the spec's ClosedConnectionError), and a
method lookup on `None` is `PyErr.attributeError`. -/

inductive PyErr where
  | connectionError : PyErr
  | closedConnectionError : PyErr
  | attributeError : PyErr
  | encodingError : PyErr
  | unicodeDecodeError : PyErr
  | jsonDecodeError : PyErr
  | decodeOutsideModel : PyErr
deriving Repr, DecidableEq

/-- Broker-facing calls made through the pika channel/connection. -/
inductive BrokerCall where
  | exchangeDeclare (exchange ty : String) : BrokerCall
  | queueDeclare : BrokerCall
  | queueBind (queue routingKey : String) : BrokerCall
  | queueUnbind (queue : String) : BrokerCall
  | queueDelete (queue : String) : BrokerCall
  | basicPublish (routingKey : String) (body : List Nat) : BrokerCall
  | basicGet (queue : String) : BrokerCall
  | basicConsume (queue : String) : BrokerCall
  | channelClose : BrokerCall
  | connectionClose : BrokerCall
deriving Repr, DecidableEq

structure RState where
  exchange_name : String
  exchange_type : String
  connection : Option Bool
  channel : Option Bool
  queue_name : List String
deriving Repr, DecidableEq

/-- Result of one method call: Python outcome, post-state, issued calls. -/
def Res (α : Type) : Type := Except PyErr α × RState × List BrokerCall

/-- `json.dumps(message).encode("ascii")`: `dumps` raises `TypeError` on a
non-serializable value; its output under `ensure_ascii=True` is pure ASCII,
so the `encode("ascii")` step never fails. -/
def encodeBody (message : PyValue) : Except PyErr (List Nat) :=
  if canSer message then .ok ((serVal message).map Char.toNat)
  else .error .encodingError

/-- `bytes.decode("ascii")`: strict ASCII, any byte above `0x7F` raises
`UnicodeDecodeError`. -/
def asciiDecode (body : List Nat) : Except PyErr (List Char) :=
  if body.all (fun b => b < 128) then .ok (body.map Char.ofNat)
  else .error .unicodeDecodeError

/-- `json.loads(body.decode("ascii"))` as it appears in `get_message` and in
`subscribe`'s `decode_msg` adapter. -/
def decodeBody (body : List Nat) : Except PyErr PyValue :=
  match asciiDecode body with
  | .error e => .error e
  | .ok cs =>
    match pyLoads cs with
    | .ok v => .ok v
    | .error .jsonError => .error .jsonDecodeError
    | .error .notInModel => .error .decodeOutsideModel

/-- `__init__`: records the exchange identity and starts with
`self.connection = None`, `self.channel = None`, `self.queue_name = []`. -/
def Rabbitmq.init (exchange ty : String) : RState :=
  { exchange_name := exchange, exchange_type := ty,
    connection := none, channel := none, queue_name := [] }

/-- `connect_to_server`: `pika.BlockingConnection(self.parameters)` either
raises an `AMQPConnectionError` (transport, auth or TLS failure — the
`brokerReachable = false` case), before anything is assigned, or yields a
live connection; then a channel is opened and the exchange declared. -/
def Rabbitmq.connect_to_server (s : RState) (brokerReachable : Bool) :
    Res Unit :=
  if brokerReachable then
    (.ok (), { s with connection := some false, channel := some false },
     [.exchangeDeclare s.exchange_name s.exchange_type])
  else (.error .connectionError, s, [])

/-- `send_message`: CPython evaluates `self.channel.basic_publish` first
(an `AttributeError` if `self.channel` is `None`), then the arguments —
where `json.dumps` may raise — and only then performs the call, which on a
closed channel raises `ChannelWrongStateError`. -/
def Rabbitmq.send_message (s : RState) (routing_key : String)
    (message : PyValue) : Res Unit :=
  match s.channel with
  | none => (.error .attributeError, s, [])
  | some isClosed =>
    match encodeBody message with
    | .error e => (.error e, s, [])
    | .ok body =>
      if isClosed then (.error .closedConnectionError, s, [])
      else (.ok (), s, [.basicPublish routing_key body])

/-- `get_message`: `basic_get(queue, auto_ack=True)`; `delivered` is the
body the broker currently holds for the queue (`none` when empty, in which
case pika returns a `None` body and the method returns `None`). -/
def Rabbitmq.get_message (s : RState) (queue : String)
    (delivered : Option (List Nat)) : Res (Option PyValue) :=
  match s.channel with
  | none => (.error .attributeError, s, [])
  | some true => (.error .closedConnectionError, s, [])
  | some false =>
    match delivered with
    | none => (.ok none, s, [.basicGet queue])
    | some body =>
      match decodeBody body with
      | .ok v => (.ok (some v), s, [.basicGet queue])
      | .error e => (.error e, s, [.basicGet queue])

/-- `declare_local_queue`: server-named exclusive auto-delete queue, bound
to the exchange, then appended to `self.queue_name`.  `serverName` is the
broker-generated unique name. -/
def Rabbitmq.declare_local_queue (s : RState) (routing_key serverName : String) :
    Res String :=
  match s.channel with
  | none => (.error .attributeError, s, [])
  | some true => (.error .closedConnectionError, s, [])
  | some false =>
    (.ok serverName, { s with queue_name := s.queue_name ++ [serverName] },
     [.queueDeclare, .queueBind serverName routing_key])

/-- `list(set(self.queue_name))`: the distinct names, in an order CPython
does not specify; fixed here as first-occurrence order.  Every theorem about
it uses only membership, distinctness and idempotence, which hold in any
order. -/
def pySetList (l : List String) : List String := l.dedup

/-- The loop body of `queues_delete`: per name one `queue_unbind` then one
`queue_delete`.  On a closed channel the first pika call raises. -/
def Rabbitmq.queues_delete_go (s : RState) (tr : List BrokerCall) :
    List String → Res Unit
  | [] => (.ok (), s, tr)
  | n :: ns =>
    match s.channel with
    | none => (.error .attributeError, s, tr)
    | some true => (.error .closedConnectionError, s, tr)
    | some false =>
      Rabbitmq.queues_delete_go s (tr ++ [.queueUnbind n, .queueDelete n]) ns

/-- `queues_delete`: reassigns `self.queue_name = list(set(self.queue_name))`
(this assignment persists even if the loop then raises), then unbinds and
deletes each name. -/
def Rabbitmq.queues_delete (s : RState) : Res Unit :=
  let s1 := { s with queue_name := pySetList s.queue_name }
  Rabbitmq.queues_delete_go s1 [] s1.queue_name

/-- `self.channel.close()`. -/
def Rabbitmq.channel_close (s : RState) : Res Unit :=
  match s.channel with
  | none => (.error .attributeError, s, [])
  | some true => (.error .closedConnectionError, s, [])
  | some false => (.ok (), { s with channel := some true }, [.channelClose])

/-- `self.connection.close()`. -/
def Rabbitmq.connection_close (s : RState) : Res Unit :=
  match s.connection with
  | none => (.error .attributeError, s, [])
  | some true => (.error .closedConnectionError, s, [])
  | some false =>
    (.ok (), { s with connection := some true }, [.connectionClose])

/-- `close`: `self.queues_delete()`, then `self.channel.close()`, then
`self.connection.close()`, unconditionally, each step only reached if the
previous one did not raise. -/
def Rabbitmq.close (s : RState) : Res Unit :=
  match Rabbitmq.queues_delete s with
  | (.ok _, s1, t1) =>
    match Rabbitmq.channel_close s1 with
    | (.ok _, s2, t2) =>
      match Rabbitmq.connection_close s2 with
      | (r3, s3, t3) => (r3, s3, t1 ++ t2 ++ t3)
    | (.error e, s2, t2) => (.error e, s2, t1 ++ t2)
  | (.error e, s1, t1) => (.error e, s1, t1)

/-- `__del__` (without its final `print`): `self.close()` is invoked only
when a channel exists and `not self.channel.is_closed and not
self.connection.is_closed`; the `and` short-circuits, so
`self.connection.is_closed` is only evaluated when the channel is open. -/
def Rabbitmq.dunder_del (s : RState) : Res Unit :=
  match s.channel with
  | none => (.ok (), s, [])
  | some chClosed =>
    if chClosed then (.ok (), s, [])
    else
      match s.connection with
      | none => (.error .attributeError, s, [])
      | some coClosed =>
        if coClosed then (.ok (), s, []) else Rabbitmq.close s

/-- The `decode_msg` adapter registered by `subscribe`: the delivered body
is ASCII-decoded and JSON-parsed before `on_message_callback` is invoked;
its result is the value handed to the callback. -/
def Rabbitmq.decode_msg (body : List Nat) : Except PyErr PyValue :=
  decodeBody body

/-- `subscribe`: `declare_local_queue` then `basic_consume` with the
decoding adapter, returning the created queue name. -/
def Rabbitmq.subscribe (s : RState) (routing_key serverName : String) :
    Res String :=
  match Rabbitmq.declare_local_queue s routing_key serverName with
  | (.ok q, s1, t1) =>
    match s1.channel with
    | none => (.error .attributeError, s1, t1)
    | some true => (.error .closedConnectionError, s1, t1)
    | some false => (.ok q, s1, t1 ++ [.basicConsume q])
  | (.error e, s1, t1) => (.error e, s1, t1)

/-- The unbind/delete action sequence `queues_delete` issues for a list. -/
def cleanupTrace : List String → List BrokerCall
  | [] => []
  | n :: ns => .queueUnbind n :: .queueDelete n :: cleanupTrace ns

theorem char_toNat_ofNat (n : Nat) (h : n.isValidChar) :
    (Char.ofNat n).toNat = n := by
  unfold Char.ofNat
  rw [dif_pos h]
  rfl

theorem char_eq_of_toNat (c d : Char) (h : c.toNat = d.toNat) : c = d :=
  Char.ext (UInt32.ext h)

example : serVal (.arr [.int 10, .str ['a'], .nanFloat]) =
    "[10, \"a\", NaN]".data := rfl
example : serVal (.dict [(['x'], .int (-3))]) =
    ['{', '"', 'x', '"', ':', ' ', '-', '3', '}'] := rfl
example : serVal (.str ['é']) = ['"', '\\', 'u', '0', '0', 'e', '9', '"'] := rfl
example : serVal (.str ['\x08']) = ['"', '\\', 'b', '"'] := rfl
example : serVal (.str [Char.ofNat 0x1F600]) =
    ['"', '\\', 'u', 'd', '8', '3', 'd', '\\', 'u', 'd', 'e', '0', '0', '"'] := rfl
example : pyLoads "[10, true]".data = .ok (.arr [.int 10, .bool true]) := rfl
example : pyLoads ['{', '"', 'a', '"', ':', ' ', '1', '}'] =
    .ok (.dict [(['a'], .int 1)]) := rfl
example : pyLoads "1.5".data = .error .notInModel := rfl
example : pyLoads (serVal (.str ['é', Char.ofNat 0x1F600, '\n'])) =
    .ok (.str ['é', Char.ofNat 0x1F600, '\n']) := rfl

theorem dChar_toNat (d : Nat) (h : d < 10) : (dChar d).toNat = 48 + d :=
  char_toNat_ofNat _ (Or.inl (by omega))

theorem isDigitCh_dChar (d : Nat) (h : d < 10) : isDigitCh (dChar d) = true := by
  simp [isDigitCh, dChar_toNat d h]
  omega

theorem digVal_dChar (d : Nat) (h : d < 10) : digVal (dChar d) = d := by
  simp [digVal, dChar_toNat d h]

theorem dChar_ne_zeroCh (d : Nat) (h : d < 10) (h0 : d ≠ 0) : dChar d ≠ '0' := by
  intro he
  have h1 := dChar_toNat d h
  rw [he] at h1
  have h2 : ('0').toNat = 48 := rfl
  omega

theorem natDigsAux_congr (n : Nat) : ∀ fuel fuel', n ≤ fuel → n ≤ fuel' →
    natDigsAux fuel n = natDigsAux fuel' n := by
  induction n using Nat.strong_induction_on with
  | _ n ih =>
    intro fuel fuel' h h'
    match fuel, fuel' with
    | 0, 0 => rfl
    | 0, g + 1 =>
      have : n = 0 := by omega
      subst this
      simp [natDigsAux]
    | f + 1, 0 =>
      have : n = 0 := by omega
      subst this
      simp [natDigsAux]
    | f + 1, g + 1 =>
      by_cases h10 : n < 10
      · simp [natDigsAux, h10]
      · simp only [natDigsAux, if_neg h10]
        rw [ih (n / 10) (by omega) f g (by omega) (by omega)]

theorem natDigs_eq (n : Nat) : natDigs n =
    if n < 10 then [dChar n] else natDigs (n / 10) ++ [dChar (n % 10)] := by
  unfold natDigs
  match n with
  | 0 => simp [natDigsAux]
  | m + 1 =>
    by_cases h10 : m + 1 < 10
    · simp [natDigsAux, h10]
    · simp only [natDigsAux, if_neg h10]
      rw [natDigsAux_congr ((m + 1) / 10) m ((m + 1) / 10) (by omega) (by omega)]

theorem natDigs_digits (n : Nat) : ∀ c ∈ natDigs n, isDigitCh c = true := by
  induction n using Nat.strong_induction_on with
  | _ n ih =>
    rw [natDigs_eq]
    by_cases h10 : n < 10
    · simp [h10, isDigitCh_dChar n h10]
    · simp only [if_neg h10, List.mem_append, List.mem_singleton]
      rintro c (hc | hc)
      · exact ih (n / 10) (by omega) c hc
      · subst hc
        exact isDigitCh_dChar _ (by omega)

theorem natDigs_cons (n : Nat) : ∃ c cs, natDigs n = c :: cs ∧
    isDigitCh c = true ∧ (n ≠ 0 → c ≠ '0') := by
  induction n using Nat.strong_induction_on with
  | _ n ih =>
    rw [natDigs_eq]
    by_cases h10 : n < 10
    · refine ⟨dChar n, [], by simp [h10], isDigitCh_dChar n h10, ?_⟩
      intro h0
      exact dChar_ne_zeroCh n h10 h0
    · obtain ⟨c, cs, hEq, hDig, hZ⟩ := ih (n / 10) (by omega)
      refine ⟨c, cs ++ [dChar (n % 10)], by simp [h10, hEq], hDig, ?_⟩
      intro _
      exact hZ (by omega)

theorem fromDigs_natDigs (n : Nat) :
    (natDigs n).foldl (fun a c => a * 10 + digVal c) 0 = n := by
  induction n using Nat.strong_induction_on with
  | _ n ih =>
    rw [natDigs_eq]
    by_cases h10 : n < 10
    · simp [h10, digVal_dChar n h10]
    · rw [if_neg h10, List.foldl_append, ih (n / 10) (by omega)]
      simp [digVal_dChar (n % 10) (by omega)]
      omega

theorem takeWhile_app (p : Char → Bool) (l rest : List Char)
    (h : ∀ c ∈ l, p c = true)
    (h2 : ∀ c, rest.head? = some c → p c = false) :
    (l ++ rest).takeWhile p = l ∧ (l ++ rest).dropWhile p = rest := by
  induction l with
  | nil =>
    simp only [List.nil_append]
    match rest with
    | [] => simp
    | c :: r => simp [List.takeWhile_cons, List.dropWhile_cons, h2 c rfl]
  | cons a l ihl =>
    have ha : p a = true := h a (by simp)
    have := ihl (fun c hc => h c (by simp [hc]))
    simp [List.takeWhile_cons, List.dropWhile_cons, ha, this.1, this.2]

theorem numStop_fracExp (rest : List Char) (h : numStop rest = true) :
    fracExpStart rest = false := by
  match rest with
  | [] => rfl
  | c :: r =>
    simp [numStop] at h
    obtain ⟨⟨⟨hd, h1⟩, h2⟩, h3⟩ := h
    simp [fracExpStart, h1, h2, h3]

theorem numStop_noDigit (rest : List Char) (h : numStop rest = true) :
    ∀ c, rest.head? = some c → isDigitCh c = false := by
  match rest with
  | [] => intro c hc; simp at hc
  | c :: r =>
    intro d hd
    simp at hd
    subst hd
    simp [numStop] at h
    obtain ⟨⟨⟨hd, h1⟩, h2⟩, h3⟩ := h
    simp [hd]

theorem parseUDec_natDigs (n : Nat) (rest : List Char)
    (h : numStop rest = true) : parseUDec (natDigs n ++ rest) = .ok (n, rest) := by
  by_cases h0 : n = 0
  · subst h0
    have : natDigs 0 = ['0'] := rfl
    rw [this]
    simp [parseUDec, numStop_fracExp rest h]
  · obtain ⟨c, cs, hEq, hDig, hZ⟩ := natDigs_cons n
    have hcz : c ≠ '0' := hZ h0
    have hAll : ∀ x ∈ cs, isDigitCh x = true := by
      intro x hx
      exact natDigs_digits n x (by rw [hEq]; simp [hx])
    have htw := takeWhile_app isDigitCh cs rest hAll (numStop_noDigit rest h)
    rw [hEq, List.cons_append]
    simp only [parseUDec, if_neg hcz, hDig, if_pos rfl, htw.1, htw.2,
      numStop_fracExp rest h, if_neg (Bool.false_ne_true), ite_false]
    have : (c :: cs).foldl (fun a d => a * 10 + digVal d) 0 = n := by
      have := fromDigs_natDigs n
      rw [hEq] at this
      exact this
    rw [this]
    simp

theorem digit_ne_minus (c : Char) (hd : isDigitCh c = true) : c ≠ '-' := by
  intro he
  subst he
  exact absurd hd (by decide)

theorem parseNumber_intChars (i : Int) (rest : List Char)
    (h : numStop rest = true) :
    parseNumber (intChars i ++ rest) = .ok (i, rest) := by
  by_cases hneg : i < 0
  · simp only [intChars, if_pos hneg, List.cons_append]
    simp [parseNumber, parseUDec_natDigs i.natAbs rest h, abs_of_neg hneg]
  · have hi : ((i.natAbs : Nat) : Int) = i := by omega
    simp only [intChars, if_neg hneg]
    obtain ⟨c, cs, hEq, hDig, _⟩ := natDigs_cons i.natAbs
    rw [hEq, List.cons_append]
    simp only [parseNumber, if_neg (digit_ne_minus c hDig)]
    rw [← List.cons_append, ← hEq, parseUDec_natDigs i.natAbs rest h]
    simp [hi]

theorem hChar_hexVal (d : Nat) (h : d < 16) : hexVal (hChar d) = some d := by
  by_cases h10 : d < 10
  · have ht : (hChar d).toNat = 48 + d := by
      simp only [hChar, if_pos h10]
      exact char_toNat_ofNat _ (Or.inl (by omega))
    simp [hexVal, ht]
    omega
  · have ht : (hChar d).toNat = 87 + d := by
      simp only [hChar, if_neg h10]
      exact char_toNat_ofNat _ (Or.inl (by omega))
    simp only [hexVal, ht]
    rw [if_neg (by omega), if_pos (by omega)]
    congr 1
    omega

theorem char_valid_nat (c : Char) :
    c.toNat < 0xD800 ∨ (0xDFFF < c.toNat ∧ c.toNat < 0x110000) := by
  have := c.valid
  unfold UInt32.isValidChar at this
  unfold Nat.isValidChar at this
  exact this

theorem hex4Val_hChars (a b c d : Nat) (ha : a < 16) (hb : b < 16)
    (hc : c < 16) (hd : d < 16) :
    hex4Val (hChar a) (hChar b) (hChar c) (hChar d) =
      some (((a * 16 + b) * 16 + c) * 16 + d) := by
  simp [hex4Val, hChar_hexVal a ha, hChar_hexVal b hb, hChar_hexVal c hc,
    hChar_hexVal d hd]

/-- `hex4Val` of the four digits emitted by `hex4` recovers the value. -/
theorem hex4Val_hex4 (n : Nat) (h : n < 65536) :
    hex4Val (hChar (n / 4096 % 16)) (hChar (n / 256 % 16))
      (hChar (n / 16 % 16)) (hChar (n % 16)) = some n := by
  rw [hex4Val_hChars _ _ _ _ (by omega) (by omega) (by omega) (by omega)]
  congr 1
  omega

theorem escU_bmp (n : Nat) (h : n < 65536) (r : List Char)
    (hno : ¬(0xD800 ≤ n ∧ n ≤ 0xDBFF)) (hno2 : ¬(0xDC00 ≤ n ∧ n ≤ 0xDFFF)) :
    parseEscU (hex4 n ++ r) = .ok (Char.ofNat n, r) := by
  simp only [hex4, List.cons_append, List.nil_append, parseEscU,
    hex4Val_hex4 n h]
  rw [if_neg hno, if_neg hno2]

theorem escU_pair (n m : Nat) (hn : 0xD800 ≤ n ∧ n ≤ 0xDBFF)
    (hm : 0xDC00 ≤ m ∧ m ≤ 0xDFFF) (hnb : n < 65536) (hmb : m < 65536)
    (r : List Char) :
    parseEscU (hex4 n ++ ('\\' :: 'u' :: hex4 m ++ r)) =
      .ok (combineSurrogate n m, r) := by
  simp only [hex4, List.cons_append, List.nil_append, parseEscU,
    hex4Val_hex4 n hnb, hex4Val_hex4 m hmb]
  rw [if_pos hn, if_pos hm]

theorem psbF_quote (fuel : Nat) (r : List Char) :
    parseStringBodyF (fuel + 1) ('"' :: r) = .ok ([], r) := by
  simp [parseStringBodyF]

theorem psbF_esc_simple (fuel : Nat) (e c2 : Char) (r : List Char)
    (he : e ≠ 'u') (hs : escSimple e = some c2) :
    parseStringBodyF (fuel + 1) ('\\' :: e :: r) =
      (fun p => (c2 :: p.1, p.2)) <$> parseStringBodyF fuel r := by
  simp [parseStringBodyF, if_neg he, hs]

theorem psbF_esc_u (fuel : Nat) (c2 : Char) (r r2 : List Char)
    (hu : parseEscU r = .ok (c2, r2)) :
    parseStringBodyF (fuel + 1) ('\\' :: 'u' :: r) =
      (fun p => (c2 :: p.1, p.2)) <$> parseStringBodyF fuel r2 := by
  simp [parseStringBodyF, hu]

theorem psbF_raw (fuel : Nat) (c : Char) (r : List Char) (h1 : c ≠ '"')
    (h2 : c ≠ '\\') (h3 : ¬ c.toNat < 0x20) :
    parseStringBodyF (fuel + 1) (c :: r) =
      (fun p => (c :: p.1, p.2)) <$> parseStringBodyF fuel r := by
  simp only [parseStringBodyF, if_neg h1, if_neg h2, if_neg h3]

theorem psbF_ser (s : List Char) : ∀ (fuel : Nat) (rest : List Char),
    s.length < fuel →
    parseStringBodyF fuel (s.flatMap escChar ++ ('"' :: rest)) =
      .ok (s, rest) := by
  induction s with
  | nil =>
    intro fuel rest hf
    match fuel, hf with
    | f + 1, _ => simp [psbF_quote]
  | cons c s ih =>
    intro fuel rest hf
    cases fuel with
    | zero => exact absurd hf (by omega)
    | succ f =>
    have hfs : s.length < f := by simp at hf; omega
    rw [List.flatMap_cons, List.append_assoc]
    by_cases h1 : c = '"'
    · subst h1
      have he : escChar '"' = ['\\', '"'] := rfl
      rw [he]
      rw [List.cons_append, List.cons_append, List.nil_append,
        psbF_esc_simple f '"' '"' _ (by decide) rfl, ih f rest hfs]
      rfl
    · by_cases h2 : c = '\\'
      · subst h2
        have he : escChar '\\' = ['\\', '\\'] := rfl
        rw [he, List.cons_append, List.cons_append, List.nil_append,
          psbF_esc_simple f '\\' '\\' _ (by decide) rfl, ih f rest hfs]
        rfl
      · by_cases h3 : c = '\n'
        · subst h3
          have he : escChar '\n' = ['\\', 'n'] := rfl
          rw [he, List.cons_append, List.cons_append, List.nil_append,
            psbF_esc_simple f 'n' '\n' _ (by decide) rfl, ih f rest hfs]
          rfl
        · by_cases h4 : c = '\r'
          · subst h4
            have he : escChar '\r' = ['\\', 'r'] := rfl
            rw [he, List.cons_append, List.cons_append, List.nil_append,
              psbF_esc_simple f 'r' '\r' _ (by decide) rfl, ih f rest hfs]
            rfl
          · by_cases h5 : c = '\t'
            · subst h5
              have he : escChar '\t' = ['\\', 't'] := rfl
              rw [he, List.cons_append, List.cons_append, List.nil_append,
                psbF_esc_simple f 't' '\t' _ (by decide) rfl, ih f rest hfs]
              rfl
            · by_cases h6 : c.toNat = 8
              · have hcq : c = '\x08' := char_eq_of_toNat _ _ (by rw [h6]; rfl)
                subst hcq
                have he : escChar '\x08' = ['\\', 'b'] := rfl
                rw [he, List.cons_append, List.cons_append, List.nil_append,
                  psbF_esc_simple f 'b' '\x08' _ (by decide) rfl, ih f rest hfs]
                rfl
              · by_cases h7 : c.toNat = 12
                · have hcq : c = '\x0c' := char_eq_of_toNat _ _ (by rw [h7]; rfl)
                  subst hcq
                  have he : escChar '\x0c' = ['\\', 'f'] := rfl
                  rw [he, List.cons_append, List.cons_append, List.nil_append,
                    psbF_esc_simple f 'f' '\x0c' _ (by decide) rfl,
                    ih f rest hfs]
                  rfl
                · by_cases h8 : c.toNat < 0x20 ∨ 0x7E < c.toNat
                  · have hv := char_valid_nat c
                    by_cases hb : c.toNat ≤ 0xFFFF
                    · have he : escChar c = '\\' :: 'u' :: hex4 c.toNat := by
                        simp only [escChar, if_neg h1, if_neg h2, if_neg h3,
                          if_neg h4, if_neg h5, if_neg h6, if_neg h7,
                          if_pos h8, if_pos hb]
                      rw [he, List.cons_append, List.cons_append,
                        psbF_esc_u f (Char.ofNat c.toNat) _ _
                          (escU_bmp c.toNat (by omega) _ (by omega) (by omega)),
                        Char.ofNat_toNat, ih f rest hfs]
                      rfl
                    · set A := 0xD800 + (c.toNat - 0x10000) / 0x400 with hA
                      set B := 0xDC00 + (c.toNat - 0x10000) % 0x400 with hB
                      have he : escChar c =
                          ('\\' :: 'u' :: hex4 A) ++ ('\\' :: 'u' :: hex4 B) := by
                        simp only [escChar, if_neg h1, if_neg h2, if_neg h3,
                          if_neg h4, if_neg h5, if_neg h6, if_neg h7,
                          if_pos h8, if_neg hb, hA, hB]
                      have hcomb : combineSurrogate A B = c := by
                        unfold combineSurrogate
                        have hAB : 0x10000 + (A - 0xD800) * 0x400 +
                            (B - 0xDC00) = c.toNat := by omega
                        rw [hAB, Char.ofNat_toNat]
                      have harr : (('\\' :: 'u' :: hex4 A) ++
                            ('\\' :: 'u' :: hex4 B)) ++
                            (s.flatMap escChar ++ ('"' :: rest)) =
                          '\\' :: 'u' :: (hex4 A ++
                            ('\\' :: 'u' :: hex4 B ++
                              (s.flatMap escChar ++ ('"' :: rest)))) := by
                        simp
                      rw [he, harr,
                        psbF_esc_u f _ _ _
                          (escU_pair A B
                            (by constructor <;> omega)
                            (by constructor <;> omega)
                            (by omega) (by omega) _),
                        hcomb, ih f rest hfs]
                      rfl
                  · have he : escChar c = [c] := by
                      simp only [escChar, if_neg h1, if_neg h2, if_neg h3,
                        if_neg h4, if_neg h5, if_neg h6, if_neg h7, if_neg h8]
                    rw [he, List.cons_append, List.nil_append,
                      psbF_raw f c _ h1 h2 (by omega), ih f rest hfs]
                    rfl

theorem escChar_length_pos (c : Char) : 1 ≤ (escChar c).length := by
  unfold escChar
  repeat' split
  all_goals simp [hex4]

theorem flatMap_escChar_length (s : List Char) :
    s.length ≤ (s.flatMap escChar).length := by
  induction s with
  | nil => simp
  | cons c s ih =>
    rw [List.flatMap_cons]
    simp only [List.length_append, List.length_cons]
    have := escChar_length_pos c
    omega

theorem parseStringBody_ser (s : List Char) (rest : List Char) :
    parseStringBody (s.flatMap escChar ++ ('"' :: rest)) = .ok (s, rest) := by
  unfold parseStringBody
  apply psbF_ser
  simp only [List.length_append, List.length_cons]
  have := flatMap_escChar_length s
  omega

theorem skipWs_cons_nws (c : Char) (cs : List Char) (h : isWsChar c = false) :
    skipWs (c :: cs) = c :: cs := by
  simp [skipWs, List.dropWhile_cons, h]

theorem skipWs_cons_ws (c : Char) (cs : List Char) (h : isWsChar c = true) :
    skipWs (c :: cs) = skipWs cs := by
  simp [skipWs, List.dropWhile_cons, h]

theorem parseValue_ws (fuel : Nat) (l : List Char) :
    parseValue fuel (' ' :: l) = parseValue fuel l := by
  cases fuel with
  | zero => rfl
  | succ f =>
    rw [parseValue.eq_2, parseValue.eq_2,
      skipWs_cons_ws ' ' l (by decide)]

theorem pv_null (f : Nat) (r : List Char) :
    parseValue (f + 1) ('n' :: 'u' :: 'l' :: 'l' :: r) = .ok (.null, r) := by
  rw [parseValue.eq_2, skipWs_cons_nws _ _ (by decide)]
  simp

theorem pv_true (f : Nat) (r : List Char) :
    parseValue (f + 1) ('t' :: 'r' :: 'u' :: 'e' :: r) =
      .ok (.bool true, r) := by
  rw [parseValue.eq_2, skipWs_cons_nws _ _ (by decide)]
  simp

theorem pv_false (f : Nat) (r : List Char) :
    parseValue (f + 1) ('f' :: 'a' :: 'l' :: 's' :: 'e' :: r) =
      .ok (.bool false, r) := by
  rw [parseValue.eq_2, skipWs_cons_nws _ _ (by decide)]
  simp

theorem pv_nan (f : Nat) (r : List Char) :
    parseValue (f + 1) ('N' :: 'a' :: 'N' :: r) = .ok (.nanFloat, r) := by
  rw [parseValue.eq_2, skipWs_cons_nws _ _ (by decide)]
  simp

theorem pv_str (f : Nat) (r : List Char) :
    parseValue (f + 1) ('"' :: r) =
      (fun p => (PyValue.str p.1, p.2)) <$> parseStringBody r := by
  rw [parseValue.eq_2, skipWs_cons_nws _ _ (by decide)]
  simp

theorem pv_arr (f : Nat) (r : List Char) :
    parseValue (f + 1) ('[' :: r) = parseArrBody f r := by
  rw [parseValue.eq_2, skipWs_cons_nws _ _ (by decide)]
  simp

theorem pv_obj (f : Nat) (r : List Char) :
    parseValue (f + 1) ('{' :: r) = parseObjBody f r := by
  rw [parseValue.eq_2, skipWs_cons_nws _ _ (by decide)]
  simp

theorem digit_facts (c : Char) (hd : isDigitCh c = true) :
    c ≠ '"' ∧ c ≠ '{' ∧ c ≠ '[' ∧ c ≠ 'n' ∧ c ≠ 't' ∧ c ≠ 'f' ∧ c ≠ 'N' ∧
      c ≠ 'I' ∧ isWsChar c = false ∧ c ≠ ']' := by
  refine ⟨?_, ?_, ?_, ?_, ?_, ?_, ?_, ?_, ?_, ?_⟩
  · intro h; rw [h] at hd; exact absurd hd (by decide)
  · intro h; rw [h] at hd; exact absurd hd (by decide)
  · intro h; rw [h] at hd; exact absurd hd (by decide)
  · intro h; rw [h] at hd; exact absurd hd (by decide)
  · intro h; rw [h] at hd; exact absurd hd (by decide)
  · intro h; rw [h] at hd; exact absurd hd (by decide)
  · intro h; rw [h] at hd; exact absurd hd (by decide)
  · intro h; rw [h] at hd; exact absurd hd (by decide)
  · have hsp : c ≠ ' ' := by intro h; rw [h] at hd; exact absurd hd (by decide)
    have hta : c ≠ '\t' := by
      intro h; rw [h] at hd; exact absurd hd (by decide)
    have hnl : c ≠ '\n' := by
      intro h; rw [h] at hd; exact absurd hd (by decide)
    have hcr : c ≠ '\r' := by
      intro h; rw [h] at hd; exact absurd hd (by decide)
    simp [isWsChar, hsp, hta, hnl, hcr]
  · intro h; rw [h] at hd; exact absurd hd (by decide)

theorem pv_num (f : Nat) (c : Char) (r : List Char) (i : Int) (r2 : List Char)
    (hd : c = '-' ∨ isDigitCh c = true)
    (hp : parseNumber (c :: r) = .ok (i, r2)) :
    parseValue (f + 1) (c :: r) = .ok (.int i, r2) := by
  rcases hd with hd | hd
  · subst hd
    rw [parseValue.eq_2, skipWs_cons_nws _ _ (by decide)]
    simp [hp]
  · obtain ⟨n1, n2, n3, n4, n5, n6, n7, n8, n9, _⟩ := digit_facts c hd
    rw [parseValue.eq_2, skipWs_cons_nws _ _ n9]
    simp only [if_neg n1, if_neg n2, if_neg n3, if_neg n4, if_neg n5,
      if_neg n6, if_neg n7, if_neg n8, hd, Bool.or_true, if_pos rfl, hp]
    simp

theorem pab_nil (f : Nat) (r : List Char) :
    parseArrBody (f + 1) (']' :: r) = .ok (.arr [], r) := by
  rw [parseArrBody.eq_2, skipWs_cons_nws _ _ (by decide)]
  simp

theorem pab_cons (f : Nat) (c : Char) (cs : List Char) (v : PyValue)
    (r1 : List Char) (vs : List PyValue) (r2 : List Char)
    (hcw : isWsChar c = false) (hcne : c ≠ ']')
    (hv : parseValue f (c :: cs) = .ok (v, r1))
    (ht : parseArrTail f r1 = .ok (vs, r2)) :
    parseArrBody (f + 1) (c :: cs) = .ok (.arr (v :: vs), r2) := by
  rw [parseArrBody.eq_2, skipWs_cons_nws _ _ hcw]
  simp [if_neg hcne, hv, ht]

theorem pat_nil (f : Nat) (r : List Char) :
    parseArrTail (f + 1) (']' :: r) = .ok ([], r) := by
  rw [parseArrTail.eq_2, skipWs_cons_nws _ _ (by decide)]
  simp

theorem pat_cons (f : Nat) (r : List Char) (v : PyValue) (r1 : List Char)
    (vs : List PyValue) (r2 : List Char)
    (hv : parseValue f r = .ok (v, r1))
    (ht : parseArrTail f r1 = .ok (vs, r2)) :
    parseArrTail (f + 1) (',' :: r) = .ok (v :: vs, r2) := by
  rw [parseArrTail.eq_2, skipWs_cons_nws _ _ (by decide)]
  simp [hv, ht]

theorem pob_nil (f : Nat) (r : List Char) :
    parseObjBody (f + 1) ('}' :: r) = .ok (.dict [], r) := by
  rw [parseObjBody.eq_2, skipWs_cons_nws _ _ (by decide)]
  simp

theorem pob_cons (f : Nat) (r : List Char)
    (ps : List (List Char × PyValue)) (r1 : List Char)
    (hp : parseMembs f ('"' :: r) = .ok (ps, r1)) :
    parseObjBody (f + 1) ('"' :: r) = .ok (.dict (dictFromPairs ps), r1) := by
  rw [parseObjBody.eq_2, skipWs_cons_nws _ _ (by decide)]
  simp [hp]

theorem pm_one (f : Nat) (rest : List Char) (k : List Char) (r2 : List Char)
    (v : PyValue) (r4 : List Char)
    (hk : parseStringBody rest = .ok (k, ':' :: r2))
    (hv : parseValue f r2 = .ok (v, '}' :: r4)) :
    parseMembs (f + 1) ('"' :: rest) = .ok ([(k, v)], r4) := by
  rw [parseMembs.eq_2]
  simp only [hk, skipWs_cons_nws ':' r2 (by decide), hv,
    skipWs_cons_nws '}' r4 (by decide)]

theorem pm_more (f : Nat) (rest : List Char) (k : List Char) (r2 : List Char)
    (v : PyValue) (r4 : List Char) (ps : List (List Char × PyValue))
    (r5 : List Char)
    (hk : parseStringBody rest = .ok (k, ':' :: r2))
    (hv : parseValue f r2 = .ok (v, ',' :: r4))
    (hm : parseMembs f (skipWs r4) = .ok (ps, r5)) :
    parseMembs (f + 1) ('"' :: rest) = .ok ((k, v) :: ps, r5) := by
  rw [parseMembs.eq_2]
  simp only [hk, skipWs_cons_nws ':' r2 (by decide), hv,
    skipWs_cons_nws ',' r4 (by decide), hm]

theorem keysFresh_append (k : List Char) (l1 l2 : List (List Char × PyValue)) :
    keysFresh k (l1 ++ l2) = (keysFresh k l1 && keysFresh k l2) := by
  induction l1 with
  | nil => simp [keysFresh]
  | cons kv t ih =>
    obtain ⟨k2, v2⟩ := kv
    by_cases h : k = k2
    · simp [keysFresh, h]
    · simp [keysFresh, h, ih]

theorem keysFresh_ne_of_mem (k : List Char) (t : List (List Char × PyValue))
    (h : keysFresh k t = true) (kv : List Char × PyValue) (hm : kv ∈ t) :
    ¬ k = kv.1 := by
  induction t with
  | nil => simp at hm
  | cons kv2 t ih =>
    obtain ⟨k2, v2⟩ := kv2
    by_cases he : k = k2
    · simp [keysFresh, he] at h
    · simp [keysFresh, he] at h
      rcases List.mem_cons.mp hm with rfl | hm2
      · exact he
      · exact ih h hm2

theorem pyDictInsert_fresh (acc : List (List Char × PyValue)) (k : List Char)
    (v : PyValue) (h : keysFresh k acc = true) :
    pyDictInsert acc k v = acc ++ [(k, v)] := by
  induction acc with
  | nil => rfl
  | cons kv t ih =>
    obtain ⟨k0, v0⟩ := kv
    by_cases he : k = k0
    · simp [keysFresh, he] at h
    · simp [keysFresh, he] at h
      have hne : ¬ k0 = k := fun hh => he hh.symm
      simp [pyDictInsert, hne, ih h]

theorem dictFromPairsGo_id (ps : List (List Char × PyValue)) :
    ∀ acc, (∀ kv ∈ ps, keysFresh kv.1 acc = true) →
    inModelMembs ps = true → dictFromPairsGo acc ps = acc ++ ps := by
  induction ps with
  | nil => intro acc _ _; simp [dictFromPairsGo]
  | cons kv t ih =>
    intro acc hAcc hM
    obtain ⟨k, v⟩ := kv
    have hM' : inModel v = true ∧ keysFresh k t = true ∧
        inModelMembs t = true := by
      have : inModelMembs ((k, v) :: t) =
          (inModel v && keysFresh k t && inModelMembs t) := by
        simp [inModelMembs]
      rw [this] at hM
      simp at hM
      exact ⟨hM.1.1, hM.1.2, hM.2⟩
    rw [dictFromPairsGo,
      pyDictInsert_fresh acc k v (hAcc (k, v) (by simp))]
    rw [ih (acc ++ [(k, v)]) ?fresh hM'.2.2]
    · simp
    case fresh =>
      intro kv2 hm2
      rw [keysFresh_append]
      have h1 : keysFresh kv2.1 acc = true := hAcc kv2 (by simp [hm2])
      have h2 : keysFresh kv2.1 [(k, v)] = true := by
        have := keysFresh_ne_of_mem k t hM'.2.1 kv2 hm2
        simp [keysFresh]
        intro he
        exact this he.symm
      simp [h1, h2]

theorem dictFromPairs_id (ps : List (List Char × PyValue))
    (h : inModelMembs ps = true) : dictFromPairs ps = ps := by
  unfold dictFromPairs
  rw [dictFromPairsGo_id ps [] (by intro kv _; rfl) h]
  simp

theorem intChars_head (i : Int) : ∃ c cs, intChars i = c :: cs ∧
    (c = '-' ∨ isDigitCh c = true) := by
  by_cases hneg : i < 0
  · exact ⟨'-', natDigs i.natAbs, by simp [intChars, hneg], Or.inl rfl⟩
  · obtain ⟨c, cs, hEq, hDig, _⟩ := natDigs_cons i.natAbs
    exact ⟨c, cs, by simp [intChars, hneg, hEq], Or.inr hDig⟩

theorem serHead (v : PyValue) (hm : inModel v = true) :
    ∃ c cs, serVal v = c :: cs ∧ isWsChar c = false ∧ c ≠ ']' := by
  match v with
  | .null => exact ⟨'n', ['u', 'l', 'l'], rfl, by decide, by decide⟩
  | .bool true => exact ⟨'t', ['r', 'u', 'e'], rfl, by decide, by decide⟩
  | .bool false => exact ⟨'f', ['a', 'l', 's', 'e'], rfl, by decide, by decide⟩
  | .int i =>
    obtain ⟨c, cs, hic, hd⟩ := intChars_head i
    refine ⟨c, cs, by simp [serVal, hic], ?_, ?_⟩
    · rcases hd with rfl | hd
      · decide
      · exact (digit_facts c hd).2.2.2.2.2.2.2.2.1
    · rcases hd with rfl | hd
      · decide
      · exact (digit_facts c hd).2.2.2.2.2.2.2.2.2
  | .str s =>
    exact ⟨'"', s.flatMap escChar ++ ['"'], by simp [serVal, strChars],
      by decide, by decide⟩
  | .nanFloat => simp [inModel] at hm
  | .nonSerializable => simp [inModel] at hm
  | .arr [] => exact ⟨'[', [']'], rfl, by decide, by decide⟩
  | .arr (x :: xs) =>
    exact ⟨'[', serVal x ++ serTail xs ++ [']'], by simp [serVal],
      by decide, by decide⟩
  | .dict [] => exact ⟨'{', ['}'], rfl, by decide, by decide⟩
  | .dict (kv :: kvs) =>
    exact ⟨'{', serMemb kv ++ serMembTail kvs ++ ['}'], by simp [serVal],
      by decide, by decide⟩

theorem numStop_rbrace (r : List Char) : numStop ('}' :: r) = true := rfl

theorem numStop_rbrack (r : List Char) : numStop (']' :: r) = true := rfl

theorem numStop_serTail (xs : List PyValue) (r : List Char) :
    numStop (serTail xs ++ (']' :: r)) = true := by
  cases xs with
  | nil =>
    rw [show serTail [] = ([] : List Char) from by simp [serTail],
      List.nil_append]
    exact numStop_rbrack r
  | cons x xs =>
    rw [show serTail (x :: xs) = ',' :: ' ' :: (serVal x ++ serTail xs) from
      by simp [serTail], List.cons_append]
    rfl

theorem numStop_serMembTail (kvs : List (List Char × PyValue)) (r : List Char) :
    numStop (serMembTail kvs ++ ('}' :: r)) = true := by
  cases kvs with
  | nil =>
    rw [show serMembTail [] = ([] : List Char) from by simp [serMembTail],
      List.nil_append]
    exact numStop_rbrace r
  | cons kv kvs =>
    rw [show serMembTail (kv :: kvs) =
      ',' :: ' ' :: (serMemb kv ++ serMembTail kvs) from by simp [serMembTail],
      List.cons_append]
    rfl

theorem jsize_pos (v : PyValue) : 1 ≤ jsize v := by
  cases v <;> simp [jsize] <;> omega

theorem serMemb_shape (k : List Char) (v : PyValue) (X : List Char) :
    serMemb (k, v) ++ X =
      '"' :: (k.flatMap escChar ++ ('"' :: (':' :: (' ' :: (serVal v ++ X))))) := by
  simp [serMemb, strChars]

mutual
theorem rt_val : ∀ (v : PyValue) (fuel : Nat) (rest : List Char),
    inModel v = true → jsize v ≤ fuel → numStop rest = true →
    parseValue fuel (serVal v ++ rest) = .ok (v, rest)
  | .null, fuel, rest, _, hf, _ => by
    obtain ⟨f, rfl⟩ : ∃ f, fuel = f + 1 :=
      ⟨fuel - 1, by simp [jsize] at hf; omega⟩
    rw [show serVal .null = ['n', 'u', 'l', 'l'] from rfl]
    simp only [List.cons_append, List.nil_append]
    exact pv_null f rest
  | .bool true, fuel, rest, _, hf, _ => by
    obtain ⟨f, rfl⟩ : ∃ f, fuel = f + 1 :=
      ⟨fuel - 1, by simp [jsize] at hf; omega⟩
    rw [show serVal (.bool true) = ['t', 'r', 'u', 'e'] from rfl]
    simp only [List.cons_append, List.nil_append]
    exact pv_true f rest
  | .bool false, fuel, rest, _, hf, _ => by
    obtain ⟨f, rfl⟩ : ∃ f, fuel = f + 1 :=
      ⟨fuel - 1, by simp [jsize] at hf; omega⟩
    rw [show serVal (.bool false) = ['f', 'a', 'l', 's', 'e'] from rfl]
    simp only [List.cons_append, List.nil_append]
    exact pv_false f rest
  | .int i, fuel, rest, _, hf, hs => by
    obtain ⟨f, rfl⟩ : ∃ f, fuel = f + 1 :=
      ⟨fuel - 1, by simp [jsize] at hf; omega⟩
    obtain ⟨c, cs, hic, hd⟩ := intChars_head i
    rw [show serVal (.int i) = intChars i from by simp [serVal], hic,
      List.cons_append]
    refine pv_num f c _ i rest hd ?_
    rw [← List.cons_append, ← hic]
    exact parseNumber_intChars i rest hs
  | .str s, fuel, rest, _, hf, _ => by
    obtain ⟨f, rfl⟩ : ∃ f, fuel = f + 1 :=
      ⟨fuel - 1, by simp [jsize] at hf; omega⟩
    rw [show serVal (.str s) ++ rest =
      '"' :: (s.flatMap escChar ++ ('"' :: rest)) from by
        simp [serVal, strChars], pv_str f _, parseStringBody_ser]
    rfl
  | .nanFloat, _, _, hm, _, _ => by simp [inModel] at hm
  | .nonSerializable, _, _, hm, _, _ => by simp [inModel] at hm
  | .arr [], fuel, rest, _, hf, _ => by
    obtain ⟨f, rfl⟩ : ∃ f, fuel = f + 2 :=
      ⟨fuel - 2, by simp [jsize, jsizeList] at hf; omega⟩
    rw [show serVal (.arr []) ++ rest = '[' :: (']' :: rest) from by
      simp [serVal], show f + 2 = (f + 1) + 1 from rfl, pv_arr (f + 1) _]
    exact pab_nil f rest
  | .arr (x :: xs), fuel, rest, hm, hf, _ => by
    have hm' : inModel x = true ∧ inModelList xs = true := by
      rw [show inModel (.arr (x :: xs)) = inModelList (x :: xs) from by
        simp [inModel], show inModelList (x :: xs) =
        (inModel x && inModelList xs) from by simp [inModelList]] at hm
      simpa using hm
    have hfx : jsize (.arr (x :: xs)) =
        2 + max (jsize x) (1 + jsizeList xs) := by
      simp [jsize, jsizeList]
    rw [hfx] at hf
    obtain ⟨f, rfl⟩ : ∃ f, fuel = f + 2 := ⟨fuel - 2, by omega⟩
    rw [show serVal (.arr (x :: xs)) ++ rest =
      '[' :: (serVal x ++ (serTail xs ++ (']' :: rest))) from by simp [serVal],
      show f + 2 = (f + 1) + 1 from rfl, pv_arr (f + 1) _]
    obtain ⟨c, cs, hserx, hcw, hcne⟩ := serHead x hm'.1
    rw [hserx, List.cons_append]
    refine pab_cons f c _ x (serTail xs ++ (']' :: rest)) xs rest hcw hcne
      ?_ ?_
    · rw [← List.cons_append, ← hserx]
      exact rt_val x f (serTail xs ++ (']' :: rest)) hm'.1 (by omega)
        (numStop_serTail xs rest)
    · exact rt_tail xs f rest hm'.2 (by have := jsize_pos x; omega)
  | .dict [], fuel, rest, _, hf, _ => by
    obtain ⟨f, rfl⟩ : ∃ f, fuel = f + 2 :=
      ⟨fuel - 2, by simp [jsize, jsizeMembs] at hf; omega⟩
    rw [show serVal (.dict []) ++ rest = '{' :: ('}' :: rest) from by
      simp [serVal], show f + 2 = (f + 1) + 1 from rfl, pv_obj (f + 1) _]
    exact pob_nil f rest
  | .dict ((k, v) :: kvs), fuel, rest, hm, hf, _ => by
    have hmm : inModelMembs ((k, v) :: kvs) = true := by
      rw [show inModel (.dict ((k, v) :: kvs)) =
        inModelMembs ((k, v) :: kvs) from by simp [inModel]] at hm
      exact hm
    have hm' : inModel v = true ∧ keysFresh k kvs = true ∧
        inModelMembs kvs = true := by
      have h2 := hmm
      rw [show inModelMembs ((k, v) :: kvs) =
        (inModel v && keysFresh k kvs && inModelMembs kvs) from by
        simp [inModelMembs]] at h2
      simp at h2
      exact ⟨h2.1.1, h2.1.2, h2.2⟩
    have hfx : jsize (.dict ((k, v) :: kvs)) =
        2 + (1 + max (jsize v) (jsizeMembs kvs)) := by
      simp [jsize, jsizeMembs]
    rw [hfx] at hf
    obtain ⟨f, rfl⟩ : ∃ f, fuel = f + 2 := ⟨fuel - 2, by omega⟩
    rw [show serVal (.dict ((k, v) :: kvs)) ++ rest =
      '{' :: (serMemb (k, v) ++ (serMembTail kvs ++ ('}' :: rest))) from by
      simp [serVal], show f + 2 = (f + 1) + 1 from rfl, pv_obj (f + 1) _,
      serMemb_shape]
    rw [pob_cons f _ ((k, v) :: kvs) rest ?hp]
    · rw [dictFromPairs_id _ hmm]
    case hp =>
      rw [← serMemb_shape]
      exact rt_membs k v kvs f rest hm'.1 hm'.2.2 (by omega)
  termination_by v _ _ _ _ _ => sizeOf v

theorem rt_tail : ∀ (xs : List PyValue) (fuel : Nat) (rest : List Char),
    inModelList xs = true → 1 + jsizeList xs ≤ fuel →
    parseArrTail fuel (serTail xs ++ (']' :: rest)) = .ok (xs, rest)
  | [], fuel, rest, _, hf => by
    obtain ⟨f, rfl⟩ : ∃ f, fuel = f + 1 := ⟨fuel - 1, by omega⟩
    rw [show serTail [] = ([] : List Char) from by simp [serTail],
      List.nil_append]
    exact pat_nil f rest
  | x :: xs, fuel, rest, hm, hf => by
    have hm' : inModel x = true ∧ inModelList xs = true := by
      rw [show inModelList (x :: xs) = (inModel x && inModelList xs) from by
        simp [inModelList]] at hm
      simpa using hm
    have hfx : jsizeList (x :: xs) = max (jsize x) (1 + jsizeList xs) := by
      simp [jsizeList]
    rw [hfx] at hf
    obtain ⟨f, rfl⟩ : ∃ f, fuel = f + 1 := ⟨fuel - 1, by omega⟩
    rw [show serTail (x :: xs) = ',' :: ' ' :: (serVal x ++ serTail xs) from
      by simp [serTail]]
    simp only [List.cons_append, List.append_assoc]
    refine pat_cons f _ x (serTail xs ++ (']' :: rest)) xs rest ?_ ?_
    · rw [parseValue_ws]
      exact rt_val x f _ hm'.1 (by omega) (numStop_serTail xs rest)
    · exact rt_tail xs f rest hm'.2 (by have := jsize_pos x; omega)
  termination_by xs _ _ _ _ => sizeOf xs

theorem rt_membs : ∀ (k : List Char) (v : PyValue)
    (kvs : List (List Char × PyValue)) (fuel : Nat) (rest : List Char),
    inModel v = true → inModelMembs kvs = true →
    1 + max (jsize v) (jsizeMembs kvs) ≤ fuel →
    parseMembs fuel (serMemb (k, v) ++ (serMembTail kvs ++ ('}' :: rest))) =
      .ok ((k, v) :: kvs, rest)
  | k, v, [], fuel, rest, hv, _, hf => by
    obtain ⟨f, rfl⟩ : ∃ f, fuel = f + 1 :=
      ⟨fuel - 1, by simp [jsizeMembs] at hf; omega⟩
    rw [show serMembTail [] = ([] : List Char) from by simp [serMembTail],
      List.nil_append, serMemb_shape]
    refine pm_one f _ k (' ' :: (serVal v ++ ('}' :: rest))) v rest
      (parseStringBody_ser k _) ?_
    rw [parseValue_ws]
    exact rt_val v f ('}' :: rest) hv (by simp [jsizeMembs] at hf; omega)
      (numStop_rbrace rest)
  | k, v, (k2, v2) :: kvs, fuel, rest, hv, hM, hf => by
    have hM' : inModel v2 = true ∧ inModelMembs kvs = true := by
      have h2 := hM
      rw [show inModelMembs ((k2, v2) :: kvs) =
        (inModel v2 && keysFresh k2 kvs && inModelMembs kvs) from by
        simp [inModelMembs]] at h2
      simp at h2
      exact ⟨h2.1.1, h2.2⟩
    have hfx : jsizeMembs ((k2, v2) :: kvs) =
        1 + max (jsize v2) (jsizeMembs kvs) := by
      simp [jsizeMembs]
    rw [hfx] at hf
    obtain ⟨f, rfl⟩ : ∃ f, fuel = f + 1 := ⟨fuel - 1, by omega⟩
    rw [show serMembTail ((k2, v2) :: kvs) =
      ',' :: ' ' :: (serMemb (k2, v2) ++ serMembTail kvs) from by
      simp [serMembTail], serMemb_shape]
    simp only [List.cons_append, List.append_assoc]
    refine pm_more f _ k (' ' :: (serVal v ++ (',' :: (' ' ::
      (serMemb (k2, v2) ++ (serMembTail kvs ++ ('}' :: rest))))))) v
      (' ' :: (serMemb (k2, v2) ++ (serMembTail kvs ++ ('}' :: rest))))
      ((k2, v2) :: kvs) rest (parseStringBody_ser k _) ?_ ?_
    · rw [parseValue_ws]
      exact rt_val v f _ hv (by have := jsize_pos v2; omega) (by rfl)
    · rw [skipWs_cons_ws ' ' _ (by decide), serMemb_shape,
        skipWs_cons_nws '"' _ (by decide), ← serMemb_shape]
      exact rt_membs k2 v2 kvs f rest hM'.1 hM'.2
        (by have := jsize_pos v; omega)
  termination_by _ v kvs _ _ _ _ _ => 1 + sizeOf v + sizeOf kvs
end

theorem serLen_pos (v : PyValue) (hm : inModel v = true) :
    1 ≤ (serVal v).length := by
  obtain ⟨c, cs, hEq, _, _⟩ := serHead v hm
  simp [hEq]

mutual
theorem jsize_le_len : ∀ (v : PyValue), inModel v = true →
    jsize v ≤ (serVal v).length
  | .null, _ => by simp [jsize, serVal]
  | .bool true, _ => by simp [jsize, serVal]
  | .bool false, _ => by simp [jsize, serVal]
  | .int i, _ => by
    obtain ⟨c, cs, hic, _⟩ := intChars_head i
    simp [jsize, serVal, hic]
  | .str s, _ => by simp [jsize, serVal, strChars]
  | .nanFloat, hm => by simp [inModel] at hm
  | .nonSerializable, hm => by simp [inModel] at hm
  | .arr [], _ => by simp [jsize, jsizeList, serVal]
  | .arr (x :: xs), hm => by
    have hm' : inModel x = true ∧ inModelList xs = true := by
      rw [show inModel (.arr (x :: xs)) = inModelList (x :: xs) from by
        simp [inModel], show inModelList (x :: xs) =
        (inModel x && inModelList xs) from by simp [inModelList]] at hm
      simpa using hm
    have h1 := jsize_le_len x hm'.1
    have h2 := jsizeList_le xs hm'.2
    have h3 := serLen_pos x hm'.1
    rw [show jsize (.arr (x :: xs)) = 2 + max (jsize x) (1 + jsizeList xs) from
      by simp [jsize, jsizeList],
      show serVal (.arr (x :: xs)) = '[' :: (serVal x ++ serTail xs ++ [']'])
      from by simp [serVal]]
    simp only [List.length_cons, List.length_append, List.length_singleton]
    omega
  | .dict [], _ => by simp [jsize, jsizeMembs, serVal]
  | .dict ((k, v) :: kvs), hm => by
    have hmm : inModelMembs ((k, v) :: kvs) = true := by
      rw [show inModel (.dict ((k, v) :: kvs)) =
        inModelMembs ((k, v) :: kvs) from by simp [inModel]] at hm
      exact hm
    have hm' : inModel v = true ∧ inModelMembs kvs = true := by
      have h2 := hmm
      rw [show inModelMembs ((k, v) :: kvs) =
        (inModel v && keysFresh k kvs && inModelMembs kvs) from by
        simp [inModelMembs]] at h2
      simp at h2
      exact ⟨h2.1.1, h2.2⟩
    have h1 := jsize_le_len v hm'.1
    have h2 := jsizeMembs_le kvs hm'.2
    rw [show jsize (.dict ((k, v) :: kvs)) =
      2 + (1 + max (jsize v) (jsizeMembs kvs)) from by simp [jsize, jsizeMembs],
      show serVal (.dict ((k, v) :: kvs)) =
      '{' :: (serMemb (k, v) ++ serMembTail kvs ++ ['}']) from by simp [serVal],
      show serMemb (k, v) = strChars k ++ (':' :: ' ' :: serVal v) from by
      simp [serMemb]]
    simp only [List.length_cons, List.length_append, List.length_singleton,
      strChars]
    omega
  termination_by v _ => sizeOf v

theorem jsizeList_le : ∀ (xs : List PyValue), inModelList xs = true →
    jsizeList xs ≤ (serTail xs).length
  | [], _ => by simp [jsizeList, serTail]
  | x :: xs, hm => by
    have hm' : inModel x = true ∧ inModelList xs = true := by
      rw [show inModelList (x :: xs) = (inModel x && inModelList xs) from by
        simp [inModelList]] at hm
      simpa using hm
    have h1 := jsize_le_len x hm'.1
    have h2 := jsizeList_le xs hm'.2
    rw [show jsizeList (x :: xs) = max (jsize x) (1 + jsizeList xs) from by
      simp [jsizeList],
      show serTail (x :: xs) = ',' :: ' ' :: (serVal x ++ serTail xs) from by
      simp [serTail]]
    simp only [List.length_cons, List.length_append]
    omega
  termination_by xs _ => sizeOf xs

theorem jsizeMembs_le : ∀ (kvs : List (List Char × PyValue)),
    inModelMembs kvs = true → jsizeMembs kvs ≤ (serMembTail kvs).length
  | [], _ => by simp [jsizeMembs, serMembTail]
  | (k, v) :: kvs, hm => by
    have hm' : inModel v = true ∧ inModelMembs kvs = true := by
      have h2 := hm
      rw [show inModelMembs ((k, v) :: kvs) =
        (inModel v && keysFresh k kvs && inModelMembs kvs) from by
        simp [inModelMembs]] at h2
      simp at h2
      exact ⟨h2.1.1, h2.2⟩
    have h1 := jsize_le_len v hm'.1
    have h2 := jsizeMembs_le kvs hm'.2
    rw [show jsizeMembs ((k, v) :: kvs) =
      1 + max (jsize v) (jsizeMembs kvs) from by simp [jsizeMembs],
      show serMembTail ((k, v) :: kvs) =
      ',' :: ' ' :: (serMemb (k, v) ++ serMembTail kvs) from by
      simp [serMembTail],
      show serMemb (k, v) = strChars k ++ (':' :: ' ' :: serVal v) from by
      simp [serMemb]]
    simp only [List.length_cons, List.length_append, strChars]
    omega
  termination_by kvs _ => sizeOf kvs
end

theorem pyLoads_serVal (v : PyValue) (hm : inModel v = true) :
    pyLoads (serVal v) = .ok v := by
  unfold pyLoads
  have hrt := rt_val v ((serVal v).length + 1) [] hm
    (by have := jsize_le_len v hm; omega) rfl
  rw [List.append_nil] at hrt
  rw [hrt]
  rfl

theorem digit_lt128 (c : Char) (hd : isDigitCh c = true) : c.toNat < 128 := by
  simp [isDigitCh] at hd
  omega

theorem hChar_lt128 (d : Nat) (h : d < 16) : (hChar d).toNat < 128 := by
  by_cases h10 : d < 10
  · rw [show (hChar d).toNat = 48 + d from by
      simp only [hChar, if_pos h10]
      exact char_toNat_ofNat _ (Or.inl (by omega))]
    omega
  · rw [show (hChar d).toNat = 87 + d from by
      simp only [hChar, if_neg h10]
      exact char_toNat_ofNat _ (Or.inl (by omega))]
    omega

theorem hex4_ascii (n : Nat) : ∀ c ∈ hex4 n, c.toNat < 128 := by
  intro c hc
  simp [hex4] at hc
  rcases hc with rfl | rfl | rfl | rfl <;> exact hChar_lt128 _ (by omega)

theorem escChar_ascii (c : Char) : ∀ c2 ∈ escChar c, c2.toNat < 128 := by
  intro c2 hc2
  unfold escChar at hc2
  split_ifs at hc2 with h1 h2 h3 h4 h5 h6 h7 h8 h9
  · fin_cases hc2 <;> decide
  · fin_cases hc2 <;> decide
  · fin_cases hc2 <;> decide
  · fin_cases hc2 <;> decide
  · fin_cases hc2 <;> decide
  · fin_cases hc2 <;> decide
  · fin_cases hc2 <;> decide
  · simp at hc2
    rcases hc2 with rfl | rfl | hc2
    · decide
    · decide
    · exact hex4_ascii _ _ hc2
  · rcases List.mem_append.mp hc2 with hc2 | hc2
    · rcases List.mem_cons.mp hc2 with rfl | hc2
      · decide
      · rcases List.mem_cons.mp hc2 with rfl | hc2
        · decide
        · exact hex4_ascii _ _ hc2
    · rcases List.mem_cons.mp hc2 with rfl | hc2
      · decide
      · rcases List.mem_cons.mp hc2 with rfl | hc2
        · decide
        · exact hex4_ascii _ _ hc2
  · simp at hc2
    subst hc2
    omega

theorem strChars_ascii (k : List Char) : ∀ c ∈ strChars k, c.toNat < 128 := by
  intro c hc
  simp only [strChars, List.mem_cons, List.mem_append] at hc
  rcases hc with rfl | hc | hc
  · decide
  · obtain ⟨c1, _, hin⟩ := List.mem_flatMap.mp hc
    exact escChar_ascii c1 c hin
  · simp at hc
    subst hc
    decide

theorem intChars_ascii (i : Int) : ∀ c ∈ intChars i, c.toNat < 128 := by
  intro c hc
  unfold intChars at hc
  split_ifs at hc
  · rcases List.mem_cons.mp hc with rfl | hc
    · decide
    · exact digit_lt128 c (natDigs_digits _ c hc)
  · exact digit_lt128 c (natDigs_digits _ c hc)

mutual
theorem serVal_ascii : ∀ (v : PyValue), ∀ c ∈ serVal v, c.toNat < 128
  | .null => by
    intro c hc
    rw [show serVal .null = ['n', 'u', 'l', 'l'] from rfl] at hc
    fin_cases hc <;> decide
  | .bool true => by
    intro c hc
    rw [show serVal (.bool true) = ['t', 'r', 'u', 'e'] from rfl] at hc
    fin_cases hc <;> decide
  | .bool false => by
    intro c hc
    rw [show serVal (.bool false) = ['f', 'a', 'l', 's', 'e'] from rfl] at hc
    fin_cases hc <;> decide
  | .int i => by
    intro c hc
    rw [show serVal (.int i) = intChars i from by simp [serVal]] at hc
    exact intChars_ascii i c hc
  | .str s => by
    intro c hc
    rw [show serVal (.str s) = strChars s from by simp [serVal]] at hc
    exact strChars_ascii s c hc
  | .nanFloat => by
    intro c hc
    rw [show serVal .nanFloat = ['N', 'a', 'N'] from rfl] at hc
    fin_cases hc <;> decide
  | .nonSerializable => by
    intro c hc
    rw [show serVal .nonSerializable = [] from rfl] at hc
    exact absurd hc (List.not_mem_nil c)
  | .arr [] => by
    intro c hc
    rw [show serVal (.arr []) = ['[', ']'] from rfl] at hc
    fin_cases hc <;> decide
  | .arr (x :: xs) => by
    intro c hc
    rw [show serVal (.arr (x :: xs)) =
      '[' :: (serVal x ++ serTail xs ++ [']']) from by simp [serVal]] at hc
    simp only [List.mem_cons, List.mem_append] at hc
    rcases hc with rfl | (hc | hc) | hc
    · decide
    · exact serVal_ascii x c hc
    · exact serTail_ascii xs c hc
    · simp at hc; subst hc; decide
  | .dict [] => by
    intro c hc
    rw [show serVal (.dict []) = ['{', '}'] from rfl] at hc
    fin_cases hc <;> decide
  | .dict ((k, v) :: kvs) => by
    intro c hc
    rw [show serVal (.dict ((k, v) :: kvs)) =
      '{' :: (serMemb (k, v) ++ serMembTail kvs ++ ['}']) from by
      simp [serVal],
      show serMemb (k, v) = strChars k ++ (':' :: ' ' :: serVal v) from by
      simp [serMemb]] at hc
    rcases List.mem_cons.mp hc with rfl | hc
    · decide
    rcases List.mem_append.mp hc with hc | hc
    · rcases List.mem_append.mp hc with hc | hc
      · rcases List.mem_append.mp hc with hc | hc
        · exact strChars_ascii k c hc
        · rcases List.mem_cons.mp hc with rfl | hc
          · decide
          · rcases List.mem_cons.mp hc with rfl | hc
            · decide
            · exact serVal_ascii v c hc
      · exact serMembTail_ascii kvs c hc
    · rcases List.mem_cons.mp hc with rfl | hc
      · decide
      · exact absurd hc (List.not_mem_nil c)
  termination_by v => sizeOf v

theorem serTail_ascii : ∀ (xs : List PyValue), ∀ c ∈ serTail xs, c.toNat < 128
  | [] => by
    intro c hc
    rw [show serTail [] = ([] : List Char) from by simp [serTail]] at hc
    exact absurd hc (List.not_mem_nil c)
  | x :: xs => by
    intro c hc
    rw [show serTail (x :: xs) = ',' :: ' ' :: (serVal x ++ serTail xs) from
      by simp [serTail]] at hc
    simp only [List.mem_cons, List.mem_append] at hc
    rcases hc with rfl | rfl | hc | hc
    · decide
    · decide
    · exact serVal_ascii x c hc
    · exact serTail_ascii xs c hc
  termination_by xs => sizeOf xs

theorem serMembTail_ascii : ∀ (kvs : List (List Char × PyValue)),
    ∀ c ∈ serMembTail kvs, c.toNat < 128
  | [] => by
    intro c hc
    rw [show serMembTail [] = ([] : List Char) from by simp [serMembTail]] at hc
    exact absurd hc (List.not_mem_nil c)
  | (k, v) :: kvs => by
    intro c hc
    rw [show serMembTail ((k, v) :: kvs) =
      ',' :: ' ' :: (serMemb (k, v) ++ serMembTail kvs) from by
      simp [serMembTail],
      show serMemb (k, v) = strChars k ++ (':' :: ' ' :: serVal v) from by
      simp [serMemb]] at hc
    rcases List.mem_cons.mp hc with rfl | hc
    · decide
    rcases List.mem_cons.mp hc with rfl | hc
    · decide
    rcases List.mem_append.mp hc with hc | hc
    · rcases List.mem_append.mp hc with hc | hc
      · exact strChars_ascii k c hc
      · rcases List.mem_cons.mp hc with rfl | hc
        · decide
        · rcases List.mem_cons.mp hc with rfl | hc
          · decide
          · exact serVal_ascii v c hc
    · exact serMembTail_ascii kvs c hc
  termination_by kvs => sizeOf kvs
end

mutual
theorem inModel_canSer : ∀ (v : PyValue), inModel v = true → canSer v = true
  | .null, _ => rfl
  | .bool true, _ => rfl
  | .bool false, _ => rfl
  | .int _, _ => rfl
  | .str _, _ => rfl
  | .nanFloat, hm => by simp [inModel] at hm
  | .nonSerializable, hm => by simp [inModel] at hm
  | .arr xs, hm => by
    rw [show inModel (.arr xs) = inModelList xs from by simp [inModel]] at hm
    rw [show canSer (.arr xs) = canSerList xs from by simp [canSer]]
    exact inModelList_canSer xs hm
  | .dict kvs, hm => by
    rw [show inModel (.dict kvs) = inModelMembs kvs from by
      simp [inModel]] at hm
    rw [show canSer (.dict kvs) = canSerMembs kvs from by simp [canSer]]
    exact inModelMembs_canSer kvs hm
  termination_by v _ => sizeOf v

theorem inModelList_canSer : ∀ (xs : List PyValue), inModelList xs = true →
    canSerList xs = true
  | [], _ => rfl
  | x :: xs, hm => by
    rw [show inModelList (x :: xs) = (inModel x && inModelList xs) from by
      simp [inModelList]] at hm
    simp at hm
    rw [show canSerList (x :: xs) = (canSer x && canSerList xs) from by
      simp [canSerList]]
    simp [inModel_canSer x hm.1, inModelList_canSer xs hm.2]
  termination_by xs _ => sizeOf xs

theorem inModelMembs_canSer : ∀ (kvs : List (List Char × PyValue)),
    inModelMembs kvs = true → canSerMembs kvs = true
  | [], _ => rfl
  | (k, v) :: kvs, hm => by
    rw [show inModelMembs ((k, v) :: kvs) =
      (inModel v && keysFresh k kvs && inModelMembs kvs) from by
      simp [inModelMembs]] at hm
    simp at hm
    rw [show canSerMembs ((k, v) :: kvs) = (canSer v && canSerMembs kvs) from
      by simp [canSerMembs]]
    simp [inModel_canSer v hm.1.1, inModelMembs_canSer kvs hm.2]
  termination_by kvs _ => sizeOf kvs
end

/-- C1.  For every value of the JSON data model, the decode path of
`get_message` (`json.loads` after strict-ASCII `decode`) applied to the
encode path of `send_message` (`json.dumps` then ASCII `encode`) returns the
value unchanged. -/
theorem Rabbitmq.codec_round_trip (v : PyValue) (hm : inModel v = true) :
    encodeBody v = .ok ((serVal v).map Char.toNat) ∧
    decodeBody ((serVal v).map Char.toNat) = .ok v := by
  constructor
  · simp [encodeBody, inModel_canSer v hm]
  · have hall : ((serVal v).map Char.toNat).all (fun b => b < 128) = true := by
      rw [List.all_eq_true]
      intro b hb
      obtain ⟨c, hc, rfl⟩ := List.mem_map.mp hb
      simp [serVal_ascii v c hc]
    have hback : ((serVal v).map Char.toNat).map Char.ofNat = serVal v := by
      rw [List.map_map]
      have : (Char.ofNat ∘ Char.toNat) = id := by
        funext c
        exact Char.ofNat_toNat c
      rw [this, List.map_id]
    rw [show decodeBody ((serVal v).map Char.toNat) =
      (match pyLoads (serVal v) with
        | .ok v2 => .ok v2
        | .error .jsonError => .error .jsonDecodeError
        | .error .notInModel => .error .decodeOutsideModel) from by
      unfold decodeBody asciiDecode
      rw [if_pos hall, hback]]
    rw [pyLoads_serVal v hm]

/-- Witness for C1 at a concrete nested value. -/
theorem Rabbitmq.codec_round_trip_witness :
    inModel (.dict [(['a'], .arr [.int (-2), .str ['é'], .bool true])]) =
      true ∧
    encodeBody (.dict [(['a'], .arr [.int (-2), .str ['é'], .bool true])]) =
      .ok ((serVal (.dict [(['a'],
        .arr [.int (-2), .str ['é'], .bool true])])).map Char.toNat) ∧
    decodeBody ((serVal (.dict [(['a'],
        .arr [.int (-2), .str ['é'], .bool true])])).map Char.toNat) =
      .ok (.dict [(['a'], .arr [.int (-2), .str ['é'], .bool true])]) :=
  ⟨rfl,
    (Rabbitmq.codec_round_trip
      (.dict [(['a'], .arr [.int (-2), .str ['é'], .bool true])]) (by rfl)).1,
    (Rabbitmq.codec_round_trip
      (.dict [(['a'], .arr [.int (-2), .str ['é'], .bool true])]) (by rfl)).2⟩

theorem qdg_open (ns : List String) : ∀ (s : RState) (tr : List BrokerCall),
    s.channel = some false →
    Rabbitmq.queues_delete_go s tr ns = (.ok (), s, tr ++ cleanupTrace ns) := by
  induction ns with
  | nil =>
    intro s tr h
    simp [Rabbitmq.queues_delete_go, cleanupTrace]
  | cons n ns ih =>
    intro s tr h
    rw [show Rabbitmq.queues_delete_go s tr (n :: ns) =
      Rabbitmq.queues_delete_go s
        (tr ++ [BrokerCall.queueUnbind n, BrokerCall.queueDelete n]) ns from by
      simp [Rabbitmq.queues_delete_go, h], ih s _ h]
    simp [cleanupTrace]

theorem queues_delete_open (s : RState) (h : s.channel = some false) :
    Rabbitmq.queues_delete s = (.ok (),
      { s with queue_name := pySetList s.queue_name },
      cleanupTrace (pySetList s.queue_name)) := by
  unfold Rabbitmq.queues_delete
  rw [qdg_open _ _ _ (by simp [h])]
  simp

theorem cleanupTrace_shape (ns : List String) :
    ∀ a ∈ cleanupTrace ns, (∃ q, a = BrokerCall.queueUnbind q) ∨
      (∃ q, a = BrokerCall.queueDelete q) := by
  induction ns with
  | nil => intro a ha; simp [cleanupTrace] at ha
  | cons n ns ih =>
    intro a ha
    simp only [cleanupTrace, List.mem_cons] at ha
    rcases ha with rfl | rfl | ha
    · exact Or.inl ⟨n, rfl⟩
    · exact Or.inr ⟨n, rfl⟩
    · exact ih a ha

theorem cleanup_unbind_zero (ns : List String) (q : String) (h : q ∉ ns) :
    (cleanupTrace ns).count (BrokerCall.queueUnbind q) = 0 := by
  induction ns with
  | nil => rfl
  | cons n ns ih =>
    simp only [List.mem_cons] at h
    push_neg at h
    simp [cleanupTrace, List.count_cons, ih h.2]
    intro he
    exact absurd he.symm h.1

theorem cleanup_delete_zero (ns : List String) (q : String) (h : q ∉ ns) :
    (cleanupTrace ns).count (BrokerCall.queueDelete q) = 0 := by
  induction ns with
  | nil => rfl
  | cons n ns ih =>
    simp only [List.mem_cons] at h
    push_neg at h
    simp [cleanupTrace, List.count_cons, ih h.2]
    intro he
    exact absurd he.symm h.1

theorem cleanup_unbind_le_one (ns : List String) (h : ns.Nodup) (q : String) :
    (cleanupTrace ns).count (BrokerCall.queueUnbind q) ≤ 1 := by
  induction ns with
  | nil => simp [cleanupTrace]
  | cons n ns ih =>
    rw [List.nodup_cons] at h
    by_cases he : q = n
    · subst he
      simp [cleanupTrace, List.count_cons, cleanup_unbind_zero ns q h.1]
    · have hne : ¬ n = q := fun hh => he hh.symm
      simp [cleanupTrace, List.count_cons, hne, ih h.2]

theorem cleanup_delete_le_one (ns : List String) (h : ns.Nodup) (q : String) :
    (cleanupTrace ns).count (BrokerCall.queueDelete q) ≤ 1 := by
  induction ns with
  | nil => simp [cleanupTrace]
  | cons n ns ih =>
    rw [List.nodup_cons] at h
    by_cases he : q = n
    · subst he
      simp [cleanupTrace, List.count_cons, cleanup_delete_zero ns q h.1]
    · have hne : ¬ n = q := fun hh => he hh.symm
      simp [cleanupTrace, List.count_cons, hne, ih h.2]

/-- C2.  From a connected state, `close()` first unbinds and deletes every
tracked queue, then closes the channel, then the connection: its broker-call
trace is exactly the queue-cleanup calls followed by `channelClose` then
`connectionClose`, and the cleanup segment contains only unbind/delete
calls. -/
theorem Rabbitmq.close_ordering (s : RState) (hch : s.channel = some false)
    (hco : s.connection = some false) :
    Rabbitmq.close s = (.ok (),
      { s with
          queue_name := pySetList s.queue_name,
          channel := some true,
          connection := some true },
      cleanupTrace (pySetList s.queue_name) ++
        [BrokerCall.channelClose, BrokerCall.connectionClose]) ∧
    ∀ a ∈ cleanupTrace (pySetList s.queue_name),
      (∃ q, a = BrokerCall.queueUnbind q) ∨
      (∃ q, a = BrokerCall.queueDelete q) := by
  refine ⟨?_, cleanupTrace_shape _⟩
  unfold Rabbitmq.close
  rw [queues_delete_open s hch]
  simp [Rabbitmq.channel_close, Rabbitmq.connection_close, hch, hco]

/-- Witness for C2: a connected state tracking `q1` twice and `q2`. -/
theorem Rabbitmq.close_ordering_witness :
    Rabbitmq.close
      (⟨"ex", "topic", some false, some false, ["q1", "q1", "q2"]⟩ : RState) =
      (.ok (), (⟨"ex", "topic", some true, some true, ["q1", "q2"]⟩ : RState),
      [BrokerCall.queueUnbind "q1", BrokerCall.queueDelete "q1",
       BrokerCall.queueUnbind "q2", BrokerCall.queueDelete "q2",
       BrokerCall.channelClose, BrokerCall.connectionClose]) := by
  have h := (Rabbitmq.close_ordering
    (⟨"ex", "topic", some false, some false, ["q1", "q1", "q2"]⟩ : RState)
    rfl rfl).1
  rw [h]
  rfl

/-- C3 counterexample: on an already-closed connector (channel and
connection closed, no tracked queues), `close()` is not a no-op — it raises
(`self.channel.close()` on a closed channel raises
`ChannelWrongStateError`, the spec's ClosedConnectionError). -/
theorem Rabbitmq.close_idempotent_cex :
    (Rabbitmq.close (⟨"ex", "topic", some true, some true, []⟩ : RState)).1 =
      .error PyErr.closedConnectionError := rfl

/-- C3 amended.  `close()` on an already-closed connector raises
`ClosedConnectionError` instead of being a no-op; no broker call is issued,
and the only state change is the deduplication of `queue_name` performed by
`queues_delete` before its loop raises. -/
theorem Rabbitmq.close_on_closed_raises (s : RState)
    (h : s.channel = some true) :
    (Rabbitmq.close s).1 = .error PyErr.closedConnectionError ∧
    (Rabbitmq.close s).2.1 = { s with queue_name := pySetList s.queue_name } ∧
    (Rabbitmq.close s).2.2 = [] := by
  unfold Rabbitmq.close Rabbitmq.queues_delete
  cases hq : pySetList s.queue_name with
  | nil =>
    simp [hq, Rabbitmq.queues_delete_go, Rabbitmq.channel_close, h]
  | cons n ns =>
    simp [hq, Rabbitmq.queues_delete_go, h]

/-- Witness for C3's amended claim at a closed state tracking `q1`. -/
theorem Rabbitmq.close_on_closed_raises_witness :
    (Rabbitmq.close (⟨"ex", "topic", some true, some true, ["q1"]⟩ :
      RState)).1 = .error PyErr.closedConnectionError ∧
    (Rabbitmq.close (⟨"ex", "topic", some true, some true, ["q1"]⟩ :
      RState)).2.1 = (⟨"ex", "topic", some true, some true, ["q1"]⟩ : RState) ∧
    (Rabbitmq.close (⟨"ex", "topic", some true, some true, ["q1"]⟩ :
      RState)).2.2 = [] := by
  have h := Rabbitmq.close_on_closed_raises
    (⟨"ex", "topic", some true, some true, ["q1"]⟩ : RState) rfl
  exact ⟨h.1, by rw [h.2.1]; rfl, h.2.2⟩

/-- C4.  After `close()` (channel closed), `send_message`, `get_message`
and `subscribe` all fail with `ClosedConnectionError`, issue no broker
call, and leave the connector in its closed state. -/
theorem Rabbitmq.post_close_ops_fail (s : RState) (h : s.channel = some true)
    (rk q sn : String) (msg : PyValue) (hm : canSer msg = true)
    (deliv : Option (List Nat)) :
    Rabbitmq.send_message s rk msg =
      (.error PyErr.closedConnectionError, s, []) ∧
    Rabbitmq.get_message s q deliv =
      (.error PyErr.closedConnectionError, s, []) ∧
    Rabbitmq.subscribe s rk sn =
      (.error PyErr.closedConnectionError, s, []) := by
  refine ⟨?_, ?_, ?_⟩
  · simp [Rabbitmq.send_message, h, encodeBody, hm]
  · simp [Rabbitmq.get_message, h]
  · simp [Rabbitmq.subscribe, Rabbitmq.declare_local_queue, h]

/-- Witness for C4 at a concrete closed state. -/
theorem Rabbitmq.post_close_ops_fail_witness :
    Rabbitmq.send_message (⟨"ex", "topic", some true, some true, []⟩ : RState)
      "rk" .null = (.error PyErr.closedConnectionError,
      (⟨"ex", "topic", some true, some true, []⟩ : RState), []) ∧
    Rabbitmq.get_message (⟨"ex", "topic", some true, some true, []⟩ : RState)
      "q" none = (.error PyErr.closedConnectionError,
      (⟨"ex", "topic", some true, some true, []⟩ : RState), []) ∧
    Rabbitmq.subscribe (⟨"ex", "topic", some true, some true, []⟩ : RState)
      "rk" "amq.gen-1" = (.error PyErr.closedConnectionError,
      (⟨"ex", "topic", some true, some true, []⟩ : RState), []) :=
  Rabbitmq.post_close_ops_fail
    (⟨"ex", "topic", some true, some true, []⟩ : RState) rfl
    "rk" "q" "amq.gen-1" .null rfl none

/-- C5.  `queues_delete` deduplicates the tracked list
(`list(set(...))`) before its loop, so it issues at most one unbind and at
most one delete per queue name, whatever duplicates the list held. -/
theorem Rabbitmq.queues_delete_dedup (s : RState)
    (h : s.channel = some false) (q : String) :
    ((Rabbitmq.queues_delete s).2.2.count (BrokerCall.queueUnbind q)) ≤ 1 ∧
    ((Rabbitmq.queues_delete s).2.2.count (BrokerCall.queueDelete q)) ≤ 1 := by
  rw [queues_delete_open s h]
  exact ⟨cleanup_unbind_le_one _ (List.nodup_dedup _) q,
    cleanup_delete_le_one _ (List.nodup_dedup _) q⟩

/-- Witness for C5: `q1` tracked three times still yields one unbind and
one delete for it. -/
theorem Rabbitmq.queues_delete_dedup_witness :
    ((Rabbitmq.queues_delete
      (⟨"ex", "topic", some false, some false,
        ["q1", "q1", "q1", "q2"]⟩ : RState)).2.2.count
      (BrokerCall.queueUnbind "q1")) ≤ 1 ∧
    ((Rabbitmq.queues_delete
      (⟨"ex", "topic", some false, some false,
        ["q1", "q1", "q1", "q2"]⟩ : RState)).2.2.count
      (BrokerCall.queueDelete "q1")) ≤ 1 :=
  Rabbitmq.queues_delete_dedup
    (⟨"ex", "topic", some false, some false,
      ["q1", "q1", "q1", "q2"]⟩ : RState) rfl "q1"

/-- C6 counterexample: `send_message` with `{"x": float('nan')}` does NOT
fail with an EncodingError — CPython `json.dumps` (default `allow_nan=True`)
serializes it as the non-standard literal `NaN` and the message is
published. -/
theorem Rabbitmq.send_nan_published_cex :
    inModel (.dict [(['x'], .nanFloat)]) = false ∧
    serVal (.dict [(['x'], .nanFloat)]) = "\x7b\"x\": NaN\x7d".data ∧
    Rabbitmq.send_message
      (⟨"ex", "topic", some false, some false, []⟩ : RState)
      "rk" (.dict [(['x'], .nanFloat)]) =
      (.ok (), (⟨"ex", "topic", some false, some false, []⟩ : RState),
       [BrokerCall.basicPublish "rk"
         (("\x7b\"x\": NaN\x7d".data).map Char.toNat)]) :=
  ⟨rfl, rfl, rfl⟩

/-- C6 amended.  For every message containing a non-JSON-serializable
object (`json.dumps` raises `TypeError`), `send_message` on a connector
with a channel fails with an EncodingError before any publish call is made
and the state is unchanged; NaN floats, however, are not rejected but
serialized as the literal `NaN` (see the counterexample). -/
theorem Rabbitmq.send_nonserializable_fails (s : RState) (rk : String)
    (msg : PyValue) (hch : s.channel ≠ none) (hmsg : canSer msg = false) :
    Rabbitmq.send_message s rk msg = (.error PyErr.encodingError, s, []) := by
  unfold Rabbitmq.send_message
  cases hc : s.channel with
  | none => exact absurd hc hch
  | some b => simp [encodeBody, hmsg]

/-- Witness for C6's amended claim: a message holding a non-serializable
object fails with EncodingError, publishing nothing. -/
theorem Rabbitmq.send_nonserializable_fails_witness :
    Rabbitmq.send_message
      (⟨"ex", "topic", some false, some false, []⟩ : RState) "rk"
      (.dict [(['x'], .nonSerializable)]) =
      (.error PyErr.encodingError,
       (⟨"ex", "topic", some false, some false, []⟩ : RState), []) :=
  Rabbitmq.send_nonserializable_fails
    (⟨"ex", "topic", some false, some false, []⟩ : RState) "rk"
    (.dict [(['x'], .nonSerializable)]) (by simp) rfl

/-- C7.  A failed connect attempt (transport/auth/TLS, i.e.
`pika.BlockingConnection` raising) surfaces as a ConnectionError and leaves
an unconnected connector exactly as it was: no connection and no partial
channel. -/
theorem Rabbitmq.connect_failure_unconnected (s : RState)
    (h1 : s.connection = none) (h2 : s.channel = none) :
    Rabbitmq.connect_to_server s false = (.error PyErr.connectionError, s, []) ∧
    ((Rabbitmq.connect_to_server s false).2.1).channel = none ∧
    ((Rabbitmq.connect_to_server s false).2.1).connection = none := by
  refine ⟨by simp [Rabbitmq.connect_to_server], ?_, ?_⟩
  · simp [Rabbitmq.connect_to_server, h2]
  · simp [Rabbitmq.connect_to_server, h1]

/-- Witness for C7 at the freshly-constructed state. -/
theorem Rabbitmq.connect_failure_unconnected_witness :
    Rabbitmq.connect_to_server (Rabbitmq.init "ex" "topic") false =
      (.error PyErr.connectionError, Rabbitmq.init "ex" "topic", []) ∧
    ((Rabbitmq.connect_to_server (Rabbitmq.init "ex" "topic")
      false).2.1).channel = none ∧
    ((Rabbitmq.connect_to_server (Rabbitmq.init "ex" "topic")
      false).2.1).connection = none :=
  Rabbitmq.connect_failure_unconnected (Rabbitmq.init "ex" "topic") rfl rfl

/-- C8.  The `__del__` safety net invokes `close()` exactly when a channel
exists and neither the channel nor the connection is closed; with no
channel, or a closed channel, it makes no cleanup call.  (The hypothesis
excludes the unreachable state of an open channel with no connection
object, where the Python would raise AttributeError.) -/
theorem Rabbitmq.del_invokes_close_iff (s : RState)
    (h : s.channel = some false → s.connection ≠ none) :
    Rabbitmq.dunder_del s =
      (if s.channel = some false ∧ s.connection = some false
       then Rabbitmq.close s else (.ok (), s, [])) := by
  unfold Rabbitmq.dunder_del
  cases hch : s.channel with
  | none => simp [hch]
  | some b =>
    cases b with
    | true => simp [hch]
    | false =>
      cases hco : s.connection with
      | none => exact absurd hco (h hch)
      | some cb =>
        cases cb with
        | true => simp [hch, hco]
        | false => simp [hch, hco]

/-- Witness for C8: at a connected state `__del__` equals `close`, and the
condition holds. -/
theorem Rabbitmq.del_invokes_close_iff_witness :
    Rabbitmq.dunder_del
      (⟨"ex", "topic", some false, some false, ["q1"]⟩ : RState) =
      (if (⟨"ex", "topic", some false, some false, ["q1"]⟩ : RState).channel =
          some false ∧
        (⟨"ex", "topic", some false, some false, ["q1"]⟩ : RState).connection =
          some false
       then Rabbitmq.close
         (⟨"ex", "topic", some false, some false, ["q1"]⟩ : RState)
       else (.ok (), (⟨"ex", "topic", some false, some false, ["q1"]⟩ :
         RState), [])) :=
  Rabbitmq.del_invokes_close_iff
    (⟨"ex", "topic", some false, some false, ["q1"]⟩ : RState)
    (fun _ => by simp)

/-- C9.  `queues_delete` does not clear the tracked list: afterwards
`queue_name` still holds every name it held (deduplicated), and running
`queues_delete` again re-issues exactly the same unbind/delete calls. -/
theorem Rabbitmq.queues_delete_keeps_names (s : RState)
    (h : s.channel = some false) :
    (Rabbitmq.queues_delete s).1 = .ok () ∧
    ((Rabbitmq.queues_delete s).2.1).queue_name = pySetList s.queue_name ∧
    (∀ q ∈ s.queue_name, q ∈ ((Rabbitmq.queues_delete s).2.1).queue_name) ∧
    Rabbitmq.queues_delete ((Rabbitmq.queues_delete s).2.1) =
      (.ok (), (Rabbitmq.queues_delete s).2.1,
       (Rabbitmq.queues_delete s).2.2) := by
  obtain ⟨en, et, co, ch, qn⟩ := s
  simp only [RState.channel] at h
  subst h
  rw [queues_delete_open _ rfl]
  refine ⟨rfl, rfl, ?_, ?_⟩
  · intro q hq
    simp [pySetList, List.mem_dedup]
    exact hq
  · rw [queues_delete_open _ rfl]
    simp [pySetList, List.dedup_idem]

/-- Witness for C9 with duplicates in the tracked list. -/
theorem Rabbitmq.queues_delete_keeps_names_witness :
    (Rabbitmq.queues_delete
      (⟨"ex", "topic", some false, some false, ["q1", "q2", "q1"]⟩ :
        RState)).1 = .ok () ∧
    ((Rabbitmq.queues_delete
      (⟨"ex", "topic", some false, some false, ["q1", "q2", "q1"]⟩ :
        RState)).2.1).queue_name = pySetList ["q1", "q2", "q1"] ∧
    (∀ q ∈ ["q1", "q2", "q1"], q ∈ ((Rabbitmq.queues_delete
      (⟨"ex", "topic", some false, some false, ["q1", "q2", "q1"]⟩ :
        RState)).2.1).queue_name) ∧
    Rabbitmq.queues_delete ((Rabbitmq.queues_delete
      (⟨"ex", "topic", some false, some false, ["q1", "q2", "q1"]⟩ :
        RState)).2.1) =
      (.ok (), (Rabbitmq.queues_delete
        (⟨"ex", "topic", some false, some false, ["q1", "q2", "q1"]⟩ :
          RState)).2.1,
       (Rabbitmq.queues_delete
        (⟨"ex", "topic", some false, some false, ["q1", "q2", "q1"]⟩ :
          RState)).2.2) :=
  Rabbitmq.queues_delete_keeps_names
    (⟨"ex", "topic", some false, some false, ["q1", "q2", "q1"]⟩ : RState) rfl

/-- C10.  Message bodies are decoded with strict ASCII in both
`get_message` and `subscribe`'s `decode_msg` adapter: any delivered body
holding a byte above `0x7F` — including valid UTF-8 JSON — fails with
`UnicodeDecodeError` instead of yielding a message. -/
theorem Rabbitmq.nonascii_body_decode_fails (s : RState)
    (h : s.channel = some false) (q : String) (body : List Nat)
    (hb : ∃ b ∈ body, 127 < b) :
    Rabbitmq.get_message s q (some body) =
      (.error PyErr.unicodeDecodeError, s, [BrokerCall.basicGet q]) ∧
    Rabbitmq.decode_msg body = .error PyErr.unicodeDecodeError := by
  have hdec : decodeBody body = .error PyErr.unicodeDecodeError := by
    unfold decodeBody asciiDecode
    rw [if_neg ?hall]
    case hall =>
      intro hall
      obtain ⟨b, hbm, hbig⟩ := hb
      have := List.all_eq_true.mp hall b hbm
      simp at this
      omega
  constructor
  · simp [Rabbitmq.get_message, h, hdec]
  · rw [show Rabbitmq.decode_msg body = decodeBody body from rfl, hdec]

/-- Witness for C10: the UTF-8 encoding of the JSON text `"é"`
(bytes 34, 195, 169, 34) is rejected. -/
theorem Rabbitmq.nonascii_body_decode_fails_witness :
    Rabbitmq.get_message
      (⟨"ex", "topic", some false, some false, []⟩ : RState) "q"
      (some [34, 195, 169, 34]) =
      (.error PyErr.unicodeDecodeError,
       (⟨"ex", "topic", some false, some false, []⟩ : RState),
       [BrokerCall.basicGet "q"]) ∧
    Rabbitmq.decode_msg [34, 195, 169, 34] =
      .error PyErr.unicodeDecodeError :=
  Rabbitmq.nonascii_body_decode_fails
    (⟨"ex", "topic", some false, some false, []⟩ : RState) rfl "q"
    [34, 195, 169, 34] ⟨195, by decide, by decide⟩
